import Mathlib

/-
Verification of the link-sorting pipeline of sortLinks.js.

The JavaScript source operates on strings; we embed a string as a list of
characters.  Every definition below is a direct translation of the
corresponding JavaScript in src/sortLinks.js, with these modelling choices
for platform primitives, stated once here:

- String.prototype.trim is modelled over the ASCII whitespace characters
  (space, tab, newline, carriage return, vertical tab, form feed); the
  inputs under consideration contain no other Unicode whitespace.
- String.prototype.toLowerCase is modelled by Char.toLower, which lowers
  ASCII letters; the strings compared here are ASCII.
- String.prototype.localeCompare is modelled as codepoint-wise
  lexicographic comparison of the two strings.  The claims considered
  depend only on this being a deterministic total preorder, plus ordinary
  alphabetical facts about ASCII strings.
- Array.prototype.sort is a stable comparison sort (required since
  ECMAScript 2019); with a consistent comparator a stable sort has a
  unique result, so it is modelled by the stable insertion sort
  stableSort below with the boolean relation (compare a b is not gt).
- A JavaScript Set is modelled as a duplicate-free list in insertion
  order; a plain object used as a map is modelled as an association list
  in key-insertion order with overwriting assignment.
- new URL(u) is modelled by parseHostname below, a model of the WHATWG
  basic URL parser restricted to what the program observes: success or
  failure, and the hostname on success.  Scheme syntax, the authority
  section, userinfo stripping, the port-must-be-digits-and-small rule and
  forbidden host characters are modelled; IDN/IPv4/percent-encoding
  normalisation of exotic hosts is not, and no claim below depends on it.
- Math.round(count / unique * 100) is modelled by displayPct, which
  returns none when unique is zero (the JavaScript value is then NaN or
  Infinity, printed as such, not a number), and otherwise rounds the
  exact rational half-up exactly as Math.round does for these magnitudes.
-/

namespace SortLinks

/-- A JavaScript string, embedded as its list of characters. -/
abbrev Str := List Char

/-- Character list of a Lean string literal. -/
def chars (s : String) : Str := s.data

/-- JavaScript whitespace recognised by trim, ASCII subset. -/
def isJsWs (c : Char) : Bool :=
  c = ' ' || c = '\t' || c = '\n' || c = '\r' || c = '\x0b' || c = '\x0c'

/-- Drop leading JavaScript whitespace. -/
def trimLeft (s : Str) : Str := s.dropWhile isJsWs

/-- Drop trailing JavaScript whitespace. -/
def trimRight (s : Str) : Str := (s.reverse.dropWhile isJsWs).reverse

/-- Model of String.prototype.trim. -/
def trim (s : Str) : Str := trimRight (trimLeft s)

/-- Model of String.prototype.startsWith: the second list is a leading
segment of the first. -/
def strStartsWith : Str → Str → Bool
  | _, [] => true
  | [], _ :: _ => false
  | c :: s, p :: ps => c == p && strStartsWith s ps

/-- Model of String.prototype.includes: the second list occurs as a
contiguous segment of the first. -/
def strContains : Str → Str → Bool
  | [], pat => strStartsWith [] pat
  | c :: rest, pat => strStartsWith (c :: rest) pat || strContains rest pat

/-- Model of String.prototype.replace with a plain-string pattern: replace
the first occurrence of pat by rep, or return the string unchanged when
pat does not occur. -/
def replaceFirst : Str → Str → Str → Str
  | [], pat, rep => if strStartsWith [] pat then rep else []
  | c :: rest, pat, rep =>
    if strStartsWith (c :: rest) pat then rep ++ List.drop pat.length (c :: rest)
    else c :: replaceFirst rest pat rep

/-- Model of String.prototype.toLowerCase, ASCII. -/
def lowerStr (s : Str) : Str := s.map Char.toLower

/-- Codepoint-wise three-way string comparison, the model of
localeCompare. -/
def strCmp : Str → Str → Ordering
  | [], [] => Ordering.eq
  | [], _ :: _ => Ordering.lt
  | _ :: _, [] => Ordering.gt
  | a :: as, b :: bs =>
    if a < b then Ordering.lt else if b < a then Ordering.gt else strCmp as bs

/-- Model of content.split with separator newline. -/
def splitNl : Str → List Str
  | [] => [[]]
  | c :: rest =>
    if c = '\n' then [] :: splitNl rest
    else
      match splitNl rest with
      | [] => [[c]]
      | p :: ps => (c :: p) :: ps

/-- Model of Array.prototype.join with separator newline. -/
def joinNl : List Str → Str
  | [] => []
  | [s] => s
  | s :: s2 :: rest => s ++ '\n' :: joinNl (s2 :: rest)

/-- The literal bullet-space marker. -/
def bulletSp : Str := chars ("* ")

/-- The literal http scheme marker. -/
def litHttp : Str := chars ("http://")

/-- The literal https scheme marker. -/
def litHttps : Str := chars ("https://")

/-- The url extracted by the scanning loop of collectStatistics
(sortLinks.js lines 14 to 22); the empty list plays the role of the empty
string sentinel, which is falsy in JavaScript. -/
def classifyUrl (line : Str) : Str :=
  let t := trim line
  if strStartsWith t bulletSp && (strContains t litHttp || strContains t litHttps) then
    trim (replaceFirst t bulletSp [])
  else if strStartsWith t litHttp || strStartsWith t litHttps then t
  else []

/-- Model of Set.prototype.add on the insertion-ordered list of a set. -/
def setAdd (s : List Str) (x : Str) : List Str := if x ∈ s then s else s ++ [x]

/-- The single scan of collectStatistics over all lines: the ordered list
of all extracted urls, duplicates included, paired with the set of unique
urls in first-occurrence order (sortLinks.js lines 10 to 28). -/
def statsScan (content : Str) : List Str × List Str :=
  (splitNl content).foldl
    (fun acc line =>
      let url := classifyUrl line
      if url = [] then acc else (acc.1 ++ [url], setAdd acc.2 url))
    ([], [])

/-- Increment of a counting table held as a key-insertion-ordered
association list, the model of a plain object counter. -/
def tblBump : List (Str × Nat) → Str → List (Str × Nat)
  | [], k => [(k, 1)]
  | (k2, n) :: rest, k =>
    if k2 = k then (k2, n + 1) :: rest else (k2, n) :: tblBump rest k

/-- ASCII letter test. -/
def isAsciiAlpha (c : Char) : Bool := ('a' ≤ c && c ≤ 'z') || ('A' ≤ c && c ≤ 'Z')

/-- ASCII digit test. -/
def isAsciiDigit (c : Char) : Bool := '0' ≤ c && c ≤ '9'

/-- Characters allowed after the first character of a URL scheme. -/
def isSchemeChar (c : Char) : Bool :=
  isAsciiAlpha c || isAsciiDigit c || c = '+' || c = '-' || c = '.'

/-- Helper of schemeSplit: accumulate scheme characters until the colon. -/
def schemeSplitAux : Str → Str → Option (Str × Str)
  | _, [] => none
  | acc, c :: rest =>
    if c = ':' then some (lowerStr acc.reverse, rest)
    else if isSchemeChar c then schemeSplitAux (c :: acc) rest
    else none

/-- Split a URL string into its lowercased scheme and the remainder after
the colon; none when no syntactically valid scheme is present, in which
case the WHATWG parser fails for a base-less URL. -/
def schemeSplit : Str → Option (Str × Str)
  | [] => none
  | c :: rest => if isAsciiAlpha c then schemeSplitAux [c] rest else none

/-- The WHATWG special schemes. -/
def specialSchemes : List Str :=
  [chars ("http"), chars ("https"), chars ("ws"), chars ("wss"),
   chars ("ftp"), chars ("file")]

/-- Characters ending the authority section. -/
def isHostDelim (c : Char) : Bool := c = '/' || c = '?' || c = '#' || c = '\\'

/-- Forbidden host code points of the WHATWG standard, ASCII part. -/
def forbiddenHostChar (c : Char) : Bool :=
  c = '\x00' || c = '\t' || c = '\n' || c = '\r' || c = ' ' || c = '#' ||
  c = '/' || c = ':' || c = '<' || c = '>' || c = '?' || c = '@' ||
  c = '[' || c = '\\' || c = ']' || c = '^' || c = '|'

/-- The host-and-port part of an authority: everything after the last at
sign, or the whole authority when none is present. -/
def hostPortOf (auth : Str) : Str := ((auth.reverse).takeWhile (fun c => c != '@')).reverse

/-- Numeric value of a digit string. -/
def portVal (s : Str) : Nat := s.foldl (fun n c => n * 10 + (c.toNat - 48)) 0

/-- Parse the host out of an authority section: split off the port at the
first colon, require the port to be a small number in digits, reject
forbidden host characters, lowercase the host.  When needNonempty is
set, as for the special schemes other than file, an empty host fails. -/
def parseHostFromAuthority (auth : Str) (needNonempty : Bool) : Option Str :=
  let hp := hostPortOf auth
  let host := hp.takeWhile (fun c => c != ':')
  let port := List.drop 1 (hp.drop host.length)
  if needNonempty && host.isEmpty then none
  else if host.any forbiddenHostChar then none
  else if !port.all isAsciiDigit then none
  else if !port.isEmpty && portVal port > 65535 then none
  else some (lowerStr host)

/-- Model of new URL(u).hostname for a base-less URL: some hostname on
parser success, none when the WHATWG parser throws. -/
def parseHostname (url : Str) : Option Str :=
  match schemeSplit url with
  | none => none
  | some (sch, rest) =>
    if sch ∈ specialSchemes then
      let afterSlashes := rest.dropWhile (fun c => c == '/' || c == '\\')
      let auth := afterSlashes.takeWhile (fun c => !isHostDelim c)
      parseHostFromAuthority auth (sch ≠ chars ("file"))
    else
      if strStartsWith rest (chars ("//")) then
        let auth := (rest.drop 2).takeWhile (fun c => !(c == '/' || c == '?' || c == '#'))
        parseHostFromAuthority auth false
      else
        some []

/-- Strip one leading www. marker, the model of replace with the anchored
www regular expression. -/
def stripWww (d : Str) : Str :=
  if strStartsWith d (chars ("www.")) then d.drop 4 else d

/-- Top-level domain of a domain string: the nonempty run of characters
after the last dot, or the literal unknown when the dot-suffix regular
expression does not match (sortLinks.js lines 49 to 50). -/
def tldOf (domain : Str) : Str :=
  let after := ((domain.reverse).takeWhile (fun c => c != '.')).reverse
  if domain.contains '.' && !after.isEmpty then after else chars ("unknown")

/-- One step of the per-unique-url fold of collectStatistics: a parse
success bumps the domain and top-level-domain tables, a failure appends
to the broken-url list (sortLinks.js lines 45 to 56). -/
def statsStep (acc : List (Str × Nat) × List (Str × Nat) × List Str) (url : Str) :
    List (Str × Nat) × List (Str × Nat) × List Str :=
  match parseHostname url with
  | some host =>
    let domain := stripWww host
    let tld := tldOf domain
    (tblBump acc.1 domain, tblBump acc.2.1 tld, acc.2.2)
  | none => (acc.1, acc.2.1, acc.2.2 ++ [url])

/-- The per-unique-url fold of collectStatistics building the domain
table, the top-level-domain table and the broken-url list (sortLinks.js
lines 44 to 57). -/
def statsTables (urls : List Str) :
    List (Str × Nat) × List (Str × Nat) × List Str :=
  urls.foldl statsStep ([], [], [])

/-- The statistics record of collectStatistics. -/
structure LinkStats where
  totalLinks : Nat
  uniqueLinks : Nat
  duplicates : Nat
  protocolHttp : Nat
  protocolHttps : Nat
  domainStats : List (Str × Nat)
  tldStats : List (Str × Nat)
  brokenLinks : List Str
deriving Repr, DecidableEq

/-- Model of collectStatistics (sortLinks.js lines 9 to 60). -/
def collectStatistics (content : Str) : LinkStats :=
  let scan := statsScan content
  let allLinks := scan.1
  let rawUrls := scan.2
  let tables := statsTables rawUrls
  { totalLinks := allLinks.length
    uniqueLinks := rawUrls.length
    duplicates := allLinks.length - rawUrls.length
    protocolHttp := (rawUrls.filter (fun u => strStartsWith u litHttp)).length
    protocolHttps := (rawUrls.filter (fun u => strStartsWith u litHttps)).length
    domainStats := tables.1
    tldStats := tables.2.1
    brokenLinks := tables.2.2 }

/-- The displayed percentage Math.round(count / unique * 100): none when
unique is zero, since the JavaScript value is then not a number. -/
def displayPct (count unique : Nat) : Option Nat :=
  if unique = 0 then none else some ((2 * (count * 100) + unique) / (2 * unique))

/-- The header-splitting predicate of sortLinks (sortLinks.js lines 134
to 135): the trimmed line starts with a bulleted or bare http marker.
This is deliberately distinct from the link classifier. -/
def isSplitLine (l : Str) : Bool :=
  let t := trim l
  (strStartsWith t (chars ("* http")) || strStartsWith t (chars ("* https"))) ||
  (strStartsWith t (chars ("http")) || strStartsWith t (chars ("https")))

/-- Index of the first line matching the splitter predicate; the loop
variable headerEndIndex keeps its initial value zero when no line
matches (sortLinks.js lines 132 to 139). -/
def findSplitIdx (lines : List Str) : Nat :=
  match lines.findIdx? isSplitLine with
  | some i => i
  | none => 0

/-- The link classifier of the extraction loop of sortLinks (lines 148 to
167): on a link line, the extracted url and the stored line, which is the
original line kept verbatim when it starts with the bullet marker and a
rebuilt bulleted line otherwise.  none on a non-link line, matching the
falsy empty-string url test of the source. -/
def classifyLine (origLine : Str) : Option (Str × Str) :=
  let line := trim origLine
  let pair :=
    if strStartsWith line bulletSp && (strContains line litHttp || strContains line litHttps) then
      let url := trim (replaceFirst line bulletSp [])
      (url, if strStartsWith origLine bulletSp then origLine else bulletSp ++ url)
    else if strStartsWith line litHttp || strStartsWith line litHttps then
      (line, bulletSp ++ line)
    else ([], origLine)
  if pair.1 = [] then none else some pair

/-- Overwriting assignment on the url-to-line map. -/
def mapPut : List (Str × Str) → Str → Str → List (Str × Str)
  | [], k, v => [(k, v)]
  | (k2, v2) :: rest, k, v =>
    if k2 = k then (k2, v) :: rest else (k2, v2) :: mapPut rest k v

/-- Lookup on the url-to-line map; the empty string models the undefined
value, which the program never reads on the keys it uses. -/
def mapGet (m : List (Str × Str)) (k : Str) : Str :=
  match m.find? (fun e => e.1 == k) with
  | some e => e.2
  | none => []

/-- One step of the extraction loop of sortLinks: push the stored line,
add the url to the set, overwrite the map entry. -/
def extractStep (acc : List Str × List Str × List (Str × Str)) (origLine : Str) :
    List Str × List Str × List (Str × Str) :=
  match classifyLine origLine with
  | none => acc
  | some (url, canon) => (acc.1 ++ [canon], setAdd acc.2.1 url, mapPut acc.2.2 url canon)

/-- The extraction loop of sortLinks over the body lines, returning the
pushed lines, the unique urls in first-occurrence order and the
url-to-line map (sortLinks.js lines 144 to 168). -/
def extractLinks (body : List Str) : List Str × List Str × List (Str × Str) :=
  body.foldl extractStep ([], [], [])

/-- The comparison key of the flat and in-group sorts: the line with the
first bullet marker removed, lowercased (sortLinks.js lines 207, 217). -/
def linkKey (l : Str) : Str := lowerStr (replaceFirst l bulletSp [])

/-- The boolean sort relation of the flat and in-group sorts. -/
def lineLe (a b : Str) : Bool := strCmp (linkKey a) (linkKey b) != Ordering.gt

/-- The boolean sort relation of the domain-key sort (sortLinks.js lines
198 to 200). -/
def keyLe (a b : Str) : Bool := strCmp (lowerStr a) (lowerStr b) != Ordering.gt

/-- Insert an element into a list, before the first member it compares
less-or-equal to; the insertion step of the stable sort. -/
def insertS (le : Str → Str → Bool) (x : Str) : List Str → List Str
  | [] => [x]
  | y :: ys => if le x y then x :: y :: ys else y :: insertS le x ys

/-- Stable insertion sort, the model of Array.prototype.sort with a
consistent comparator. -/
def stableSort (le : Str → Str → Bool) : List Str → List Str
  | [] => []
  | x :: xs => insertS le x (stableSort le xs)

/-- A single match attempt, at the head position, of the lenient
authority regular expression used as the fallback of the grouped mode. -/
def regexAuthAt (s : Str) : Option Str :=
  if strStartsWith s litHttps then
    let cap := (s.drop 8).takeWhile (fun c => c != '/')
    if cap = [] then none else some cap
  else if strStartsWith s litHttp then
    let cap := (s.drop 7).takeWhile (fun c => c != '/')
    if cap = [] then none else some cap
  else none

/-- The lenient authority regular expression of the grouped-mode
fallback: first match anywhere of an http or https marker followed by a
nonempty run of non-slash characters, capturing that run. -/
def regexAuth : Str → Option Str
  | [] => none
  | c :: rest =>
    match regexAuthAt (c :: rest) with
    | some a => some a
    | none => regexAuth rest

/-- The grouping key of a url in grouped mode: the parsed hostname, the
regular-expression authority on parse failure, the full url when both
fail; then the www marker is stripped (sortLinks.js lines 177 to 188). -/
def domainKey (url : Str) : Str :=
  let domain :=
    match parseHostname url with
    | some host => host
    | none =>
      match regexAuth url with
      | some auth => auth
      | none => url
  stripWww domain

/-- Append a member to the group of a key in the key-insertion-ordered
group table. -/
def addToGroup : List (Str × List Str) → Str → Str → List (Str × List Str)
  | [], k, v => [(k, [v])]
  | (k2, vs) :: rest, k, v =>
    if k2 = k then (k2, vs ++ [v]) :: rest else (k2, vs) :: addToGroup rest k v

/-- Lookup of a group by key. -/
def alGet (gs : List (Str × List Str)) (k : Str) : List Str :=
  match gs.find? (fun e => e.1 == k) with
  | some e => e.2
  | none => []

/-- Build the domain groups of grouped mode from the unique urls
(sortLinks.js lines 174 to 195). -/
def buildGroups (rawUrls : List Str) (urlMap : List (Str × Str)) :
    List (Str × List Str) :=
  rawUrls.foldl (fun gs url => addToGroup gs (domainKey url) (mapGet urlMap url)) []

/-- The ordered link lines of flat mode: unique urls mapped through the
url-to-line map and sorted (sortLinks.js lines 216 to 220). -/
def flatSortedLinks (content : Str) : List Str :=
  let lines := splitNl content
  let k := findSplitIdx lines
  let ex := extractLinks (lines.drop k)
  stableSort lineLe (ex.2.1.map (mapGet ex.2.2))

/-- The ordered link lines of grouped mode: sort the group keys, sort
each group internally, concatenate in key order (sortLinks.js lines 174
to 213). -/
def groupedSortedLinks (content : Str) : List Str :=
  let lines := splitNl content
  let k := findSplitIdx lines
  let ex := extractLinks (lines.drop k)
  let gs := buildGroups ex.2.1 ex.2.2
  let sortedDomains := stableSort keyLe (gs.map Prod.fst)
  sortedDomains.foldl (fun acc d => acc ++ stableSort lineLe (alGet gs d)) []

/-- The document transform of sortLinks: the preserved header followed by
the ordered link lines, joined by newlines (sortLinks.js lines 128 to
224), as a pure function from the document text and the groupByDomain
option to the rewritten text. -/
def sortLinksText (content : Str) (groupByDomain : Bool) : Str :=
  let lines := splitNl content
  let k := findSplitIdx lines
  let header := lines.take k
  joinNl (header ++ (if groupByDomain then groupedSortedLinks content else flatSortedLinks content))

/-- Total mass of a counting table: the sum of its counts. -/
def tblTotal (t : List (Str × Nat)) : Nat := (t.map Prod.snd).sum

/-- The url encoded by a stored link line, recovered by the classifier;
empty for a non-link line. -/
def lineUrl (l : Str) : Str :=
  match classifyLine l with
  | some p => p.1
  | none => []

/-- The grouping key of a stored link line: the grouping key of its
url. -/
def lineGroupKey (l : Str) : Str := domainKey (lineUrl l)

/-- The ordering contract of grouped mode between two output lines: the
group key of the earlier line is less-or-equal under the case-insensitive
comparison, so no line with a strictly smaller key follows one with a
strictly larger key, and lines of an identical group key are ordered by
the case-insensitive bullet-stripped comparison. -/
def groupedOrderOk (a b : Str) : Prop :=
  keyLe (lineGroupKey a) (lineGroupKey b) = true ∧
  (lineGroupKey a = lineGroupKey b → lineLe a b = true)

/-- A true startsWith test is exactly a leading-segment decomposition. -/
theorem strStartsWith_iff (s p : Str) : strStartsWith s p = true ↔ ∃ t, s = p ++ t := by
  induction p generalizing s with
  | nil => simp [strStartsWith]
  | cons b bs ih =>
    cases s with
    | nil => simp [strStartsWith]
    | cons a as =>
      simp only [strStartsWith, Bool.and_eq_true, beq_iff_eq, ih, List.cons_append,
        List.cons.injEq]
      constructor
      · rintro ⟨h1, t, h2⟩
        exact ⟨t, h1, h2⟩
      · rintro ⟨t, h1, h2⟩
        exact ⟨h1, t, h2⟩

/-- A true containment test is exactly a segment decomposition. -/
theorem strContains_iff (s p : Str) : strContains s p = true ↔ ∃ a b, s = a ++ (p ++ b) := by
  induction s with
  | nil =>
    simp only [strContains, strStartsWith_iff]
    constructor
    · rintro ⟨t, h⟩
      rcases List.append_eq_nil.mp h.symm with ⟨h1, h2⟩
      exact ⟨[], [], by simp [h1]⟩
    · rintro ⟨a, b, h⟩
      rcases List.append_eq_nil.mp h.symm with ⟨h1, h2⟩
      rcases List.append_eq_nil.mp h2 with ⟨h3, h4⟩
      exact ⟨[], by simp [h3]⟩
  | cons c rest ih =>
    simp only [strContains, Bool.or_eq_true, strStartsWith_iff, ih]
    constructor
    · rintro (⟨t, h⟩ | ⟨a, b, h⟩)
      · exact ⟨[], t, by simpa using h⟩
      · exact ⟨c :: a, b, by simp [h]⟩
    · rintro ⟨a, b, h⟩
      cases a with
      | nil => exact Or.inl ⟨b, by simpa using h⟩
      | cons x xs =>
        right
        have h2 : c :: rest = x :: (xs ++ (p ++ b)) := by simpa using h
        injection h2 with h3 h4
        exact ⟨xs, b, h4⟩

/-- Replace acts on a detected leading segment by dropping its length. -/
theorem replaceFirst_startsWith (s p r : Str) (h : strStartsWith s p = true) :
    replaceFirst s p r = r ++ s.drop p.length := by
  cases s with
  | nil =>
    cases p with
    | nil => simp [replaceFirst, strStartsWith]
    | cons x xs => simp [strStartsWith] at h
  | cons c rest => simp [replaceFirst, h]

/-- Characters of a bullet-stripped string come from the string. -/
theorem mem_replaceFirst_nil (s p : Str) (c : Char) (h : c ∈ replaceFirst s p []) :
    c ∈ s := by
  induction s with
  | nil =>
    simp only [replaceFirst] at h
    split at h <;> simp at h
  | cons x rest ih =>
    simp only [replaceFirst] at h
    split at h
    · simpa using List.mem_of_mem_drop h
    · rcases List.mem_cons.mp h with h1 | h1
      · simp [h1]
      · exact List.mem_cons_of_mem _ (ih h1)

/-- Characters of the left-trimmed string come from the string. -/
theorem mem_trimLeft (s : Str) (c : Char) (h : c ∈ trimLeft s) : c ∈ s :=
  (List.dropWhile_sublist isJsWs).mem h

/-- Characters of the right-trimmed string come from the string. -/
theorem mem_trimRight (s : Str) (c : Char) (h : c ∈ trimRight s) : c ∈ s := by
  have h1 : c ∈ s.reverse.dropWhile isJsWs := List.mem_reverse.mp (by simpa [trimRight] using h)
  exact List.mem_reverse.mp ((List.dropWhile_sublist isJsWs).mem h1)

/-- Characters of the trimmed string come from the string. -/
theorem mem_trim (s : Str) (c : Char) (h : c ∈ trim s) : c ∈ s :=
  mem_trimLeft s c (mem_trimRight (trimLeft s) c h)

/-- Dropping by a predicate is idempotent. -/
theorem dropWhile_idem (p : Char → Bool) (l : Str) :
    (l.dropWhile p).dropWhile p = l.dropWhile p := by
  induction l with
  | nil => simp
  | cons c rest ih =>
    by_cases h : p c
    · simp [List.dropWhile_cons, h, ih]
    · simp [List.dropWhile_cons, h]

/-- The head of a nonempty dropWhile result fails the predicate. -/
theorem dropWhile_head_false (p : Char → Bool) (l r : Str) (c : Char)
    (h : l.dropWhile p = c :: r) : p c = false := by
  induction l with
  | nil => simp at h
  | cons x rest ih =>
    by_cases hp : p x
    · rw [List.dropWhile_cons, if_pos hp] at h
      exact ih h
    · rw [List.dropWhile_cons, if_neg hp] at h
      injection h with h1 h2
      subst h1
      simpa using hp

/-- Left trim keeps a string whose head is not whitespace. -/
theorem trimLeft_cons (c : Char) (s : Str) (h : isJsWs c = false) :
    trimLeft (c :: s) = c :: s := by
  simp [trimLeft, List.dropWhile_cons, h]

/-- Right trim is idempotent. -/
theorem trimRight_idem (s : Str) : trimRight (trimRight s) = trimRight s := by
  simp [trimRight, List.reverse_reverse, dropWhile_idem]

/-- The reverse of the trimmed string is a dropWhile result. -/
theorem trim_reverse (s : Str) :
    (trim s).reverse = (trimLeft s).reverse.dropWhile isJsWs := by
  simp [trim, trimRight, List.reverse_reverse]

/-- A nonempty trimmed string ends with a non-whitespace character. -/
theorem trim_last (s u : Str) (h : trim s = u) (hne : u ≠ []) :
    ∃ d r, u.reverse = d :: r ∧ isJsWs d = false := by
  have h1 : u.reverse = (trimLeft s).reverse.dropWhile isJsWs := h ▸ trim_reverse s
  cases hu : u.reverse with
  | nil => exact absurd (by simpa using congrArg List.reverse hu) hne
  | cons d r =>
    exact ⟨d, r, rfl, dropWhile_head_false isJsWs (trimLeft s).reverse r d (h1.symm.trans hu)⟩

/-- Right trim cuts a string at a suffix. -/
theorem trimRight_eq_append (x : Str) : ∃ t, x = trimRight x ++ t := by
  refine ⟨(x.reverse.takeWhile isJsWs).reverse, ?_⟩
  calc x = x.reverse.reverse := (List.reverse_reverse x).symm
  _ = (x.reverse.takeWhile isJsWs ++ x.reverse.dropWhile isJsWs).reverse := by
        rw [List.takeWhile_append_dropWhile]
  _ = (x.reverse.dropWhile isJsWs).reverse ++ (x.reverse.takeWhile isJsWs).reverse := by
        rw [List.reverse_append]
  _ = trimRight x ++ (x.reverse.takeWhile isJsWs).reverse := rfl

/-- A nonempty trimmed string starts with a non-whitespace character. -/
theorem trim_head (s : Str) (d : Char) (r : Str) (h : trim s = d :: r) :
    isJsWs d = false := by
  obtain ⟨t, ht⟩ := trimRight_eq_append (trimLeft s)
  have h2 : trimLeft s = d :: (r ++ t) := by
    have h3 : trimRight (trimLeft s) = d :: r := h
    rw [ht, h3]
    simp
  exact dropWhile_head_false isJsWs s (r ++ t) d (by simpa [trimLeft] using h2)

/-- An ordering differs from gt exactly when its bne test against gt
holds. -/
theorem bne_gt_true_iff (o : Ordering) : (o != Ordering.gt) = true ↔ o ≠ Ordering.gt := by
  cases o <;> decide

/-- Trimming is idempotent. -/
theorem trim_idem (s : Str) : trim (trim s) = trim s := by
  cases h : trim s with
  | nil => rfl
  | cons d r =>
    have hd : isJsWs d = false := trim_head s d r h
    rw [trim, trimLeft_cons d r hd]
    calc trimRight (d :: r) = trimRight (trimRight (trimLeft s)) := by rw [← h]; rfl
    _ = trimRight (trimLeft s) := trimRight_idem (trimLeft s)
    _ = d :: r := h

/-- Attaching the bullet marker to a nonempty trimmed string gives a
trimmed string. -/
theorem trim_bullet_append (u : Str) (hu : trim u = u) (hne : u ≠ []) :
    trim (bulletSp ++ u) = bulletSp ++ u := by
  obtain ⟨d, r, hrev, hd⟩ := trim_last u u hu hne
  have hb : bulletSp ++ u = '*' :: ' ' :: u := rfl
  rw [hb, trim, trimLeft_cons '*' (' ' :: u) (by decide)]
  show trimRight ('*' :: ' ' :: u) = '*' :: ' ' :: u
  rw [trimRight]
  have h2 : ('*' :: ' ' :: u).reverse = (d :: r) ++ [' ', '*'] := by
    rw [← hrev]; simp
  rw [h2, List.cons_append, List.dropWhile_cons, if_neg (by simp [hd])]
  rw [show d :: (r ++ [' ', '*']) = (d :: r) ++ [' ', '*'] from rfl, ← hrev]
  simp

/-- The comparison of a string with itself. -/
theorem strCmp_self (a : Str) : strCmp a a = Ordering.eq := by
  induction a with
  | nil => rfl
  | cons c r ih => simp [strCmp, lt_irrefl, ih]

/-- The comparison flips under swapping the arguments. -/
theorem strCmp_gt_iff (a b : Str) : strCmp a b = Ordering.gt ↔ strCmp b a = Ordering.lt := by
  induction a generalizing b with
  | nil => cases b <;> simp [strCmp]
  | cons c r ih =>
    cases b with
    | nil => simp [strCmp]
    | cons d t =>
      simp only [strCmp]
      rcases lt_trichotomy c d with h | h | h
      · simp [h, lt_asymm h]
      · subst h
        simp [lt_irrefl, ih]
      · simp [h, lt_asymm h]

/-- Transitivity of the not-greater comparison. -/
theorem strCmp_le_trans (a b c : Str) (h1 : strCmp a b ≠ Ordering.gt)
    (h2 : strCmp b c ≠ Ordering.gt) : strCmp a c ≠ Ordering.gt := by
  induction a generalizing b c with
  | nil => cases c <;> simp [strCmp]
  | cons x r ih =>
    cases b with
    | nil => simp [strCmp] at h1
    | cons y s =>
      cases c with
      | nil => simp [strCmp] at h2
      | cons z t =>
        simp only [strCmp] at h1 h2 ⊢
        by_cases hxy : x < y
        · by_cases hyz : y < z
          · simp [lt_trans hxy hyz]
          · by_cases hzy : z < y
            · simp [hyz, hzy] at h2
            · have hyz2 : y = z := le_antisymm (not_lt.mp hzy) (not_lt.mp hyz)
              subst hyz2
              simp [hxy]
        · by_cases hyx : y < x
          · simp [hxy, hyx] at h1
          · have hxy2 : x = y := le_antisymm (not_lt.mp hyx) (not_lt.mp hxy)
            subst hxy2
            simp only [lt_irrefl, if_false] at h1
            by_cases hxz : x < z
            · simp [hxz]
            · by_cases hzx : z < x
              · simp [hxz, hzx] at h2
              · have h3 : x = z := le_antisymm (not_lt.mp hzx) (not_lt.mp hxz)
                subst h3
                simp only [lt_irrefl, if_false] at h2 ⊢
                exact ih s t h1 h2

/-- Totality of the flat-sort relation. -/
theorem lineLe_total (a b : Str) : (lineLe a b || lineLe b a) = true := by
  unfold lineLe
  cases h : strCmp (linkKey a) (linkKey b) with
  | lt => rfl
  | eq => rfl
  | gt =>
    rw [(strCmp_gt_iff (linkKey a) (linkKey b)).mp h]
    rfl

/-- Transitivity of the flat-sort relation. -/
theorem lineLe_trans (a b c : Str) (h1 : lineLe a b = true) (h2 : lineLe b c = true) :
    lineLe a c = true := by
  unfold lineLe at h1 h2 ⊢
  rw [bne_gt_true_iff] at h1 h2 ⊢
  exact strCmp_le_trans (linkKey a) (linkKey b) (linkKey c) h1 h2

/-- Totality of the domain-key relation. -/
theorem keyLe_total (a b : Str) : (keyLe a b || keyLe b a) = true := by
  unfold keyLe
  cases h : strCmp (lowerStr a) (lowerStr b) with
  | lt => rfl
  | eq => rfl
  | gt =>
    rw [(strCmp_gt_iff (lowerStr a) (lowerStr b)).mp h]
    rfl

/-- Transitivity of the domain-key relation. -/
theorem keyLe_trans (a b c : Str) (h1 : keyLe a b = true) (h2 : keyLe b c = true) :
    keyLe a c = true := by
  unfold keyLe at h1 h2 ⊢
  rw [bne_gt_true_iff] at h1 h2 ⊢
  exact strCmp_le_trans (lowerStr a) (lowerStr b) (lowerStr c) h1 h2

/-- The line splitter never returns the empty list. -/
theorem splitNl_ne_nil (s : Str) : splitNl s ≠ [] := by
  cases s with
  | nil => simp [splitNl]
  | cons c r =>
    simp only [splitNl]
    split
    · simp
    · split <;> simp

/-- Pieces of the line splitter contain no newline. -/
theorem not_mem_nl_splitNl (s : Str) (p : Str) (hp : p ∈ splitNl s) : '\n' ∉ p := by
  induction s generalizing p with
  | nil =>
    simp only [splitNl, List.mem_singleton] at hp
    subst hp
    simp
  | cons c r ih =>
    simp only [splitNl] at hp
    by_cases h : c = '\n'
    · rw [if_pos h] at hp
      rcases List.mem_cons.mp hp with h1 | h1
      · subst h1; simp
      · exact ih p h1
    · rw [if_neg h] at hp
      cases hsp : splitNl r with
      | nil => exact absurd hsp (splitNl_ne_nil r)
      | cons q qs =>
        rw [hsp] at hp
        rcases List.mem_cons.mp hp with h1 | h1
        · subst h1
          intro hmem
          rcases List.mem_cons.mp hmem with h2 | h2
          · exact h h2.symm
          · exact ih q (by simp [hsp]) h2
        · exact ih p (by simp [hsp, h1])

/-- A newline-free string splits into itself alone. -/
theorem splitNl_no_nl (s : Str) (h : '\n' ∉ s) : splitNl s = [s] := by
  induction s with
  | nil => rfl
  | cons c r ih =>
    have hc : ¬ c = '\n' := fun hh => h (by simp [hh])
    have hr : '\n' ∉ r := fun hm => h (List.mem_cons_of_mem c hm)
    simp only [splitNl, if_neg hc, ih hr]

/-- Splitting after a newline-free chunk peels off that chunk. -/
theorem splitNl_append (x r : Str) (h : '\n' ∉ x) :
    splitNl (x ++ '\n' :: r) = x :: splitNl r := by
  induction x with
  | nil => simp [splitNl]
  | cons c xs ih =>
    have hc : ¬ c = '\n' := fun hh => h (by simp [hh])
    have hx : '\n' ∉ xs := fun hm => h (List.mem_cons_of_mem c hm)
    rw [List.cons_append]
    simp only [splitNl, if_neg hc, ih hx]

/-- Splitting inverts joining on nonempty lists of newline-free lines. -/
theorem splitNl_joinNl (ls : List Str) (hne : ls ≠ []) (h : ∀ p ∈ ls, '\n' ∉ p) :
    splitNl (joinNl ls) = ls := by
  induction ls with
  | nil => exact absurd rfl hne
  | cons x rest ih =>
    cases rest with
    | nil => simpa [joinNl] using splitNl_no_nl x (h x (by simp))
    | cons y t =>
      rw [joinNl, splitNl_append x (joinNl (y :: t)) (h x (by simp))]
      rw [ih (by simp) (fun p hp => h p (List.mem_cons_of_mem x hp))]

/-- Inserting permutes to consing. -/
theorem insertS_perm (le : Str → Str → Bool) (x : Str) (l : List Str) :
    (insertS le x l).Perm (x :: l) := by
  induction l with
  | nil => exact List.Perm.refl [x]
  | cons y ys ih =>
    simp only [insertS]
    split
    · exact List.Perm.refl _
    · exact (ih.cons y).trans (List.Perm.swap x y ys)

/-- The stable sort permutes its input. -/
theorem stableSort_perm (le : Str → Str → Bool) (l : List Str) :
    (stableSort le l).Perm l := by
  induction l with
  | nil => exact List.Perm.refl []
  | cons x xs ih =>
    exact (insertS_perm le x (stableSort le xs)).trans (ih.cons x)

/-- Inserting into a sorted list keeps it sorted, given transitivity and
totality of the relation. -/
theorem pairwise_insertS (le : Str → Str → Bool)
    (htrans : ∀ a b c, le a b = true → le b c = true → le a c = true)
    (htot : ∀ a b, (le a b || le b a) = true)
    (x : Str) (l : List Str) (h : l.Pairwise (fun a b => le a b = true)) :
    (insertS le x l).Pairwise (fun a b => le a b = true) := by
  induction l with
  | nil => simp [insertS]
  | cons y ys ih =>
    have h' := List.pairwise_cons.mp h
    simp only [insertS]
    by_cases h2 : le x y = true
    · rw [if_pos h2]
      refine List.pairwise_cons.mpr ⟨?_, h⟩
      intro z hz
      rcases List.mem_cons.mp hz with h3 | h3
      · subst h3; exact h2
      · exact htrans x y z h2 (h'.1 z h3)
    · rw [if_neg h2]
      have hyx : le y x = true := by
        rcases Bool.or_eq_true_iff.mp (htot x y) with h3 | h3
        · exact absurd h3 h2
        · exact h3
      refine List.pairwise_cons.mpr ⟨?_, ih h'.2⟩
      intro z hz
      have hz2 : z ∈ x :: ys := ((insertS_perm le x ys).mem_iff).mp hz
      rcases List.mem_cons.mp hz2 with h3 | h3
      · subst h3; exact hyx
      · exact h'.1 z h3

/-- The stable sort sorts, given transitivity and totality. -/
theorem stableSort_pairwise (le : Str → Str → Bool)
    (htrans : ∀ a b c, le a b = true → le b c = true → le a c = true)
    (htot : ∀ a b, (le a b || le b a) = true) (l : List Str) :
    (stableSort le l).Pairwise (fun a b => le a b = true) := by
  induction l with
  | nil => simp [stableSort]
  | cons x xs ih => exact pairwise_insertS le htrans htot x (stableSort le xs) ih

/-- The stable sort fixes a sorted list. -/
theorem stableSort_of_pairwise (le : Str → Str → Bool) (l : List Str)
    (h : l.Pairwise (fun a b => le a b = true)) : stableSort le l = l := by
  induction l with
  | nil => rfl
  | cons x xs ih =>
    have h' := List.pairwise_cons.mp h
    rw [stableSort, ih h'.2]
    cases xs with
    | nil => rfl
    | cons y ys =>
      have hxy : le x y = true := h'.1 y (by simp)
      simp [insertS, hxy]

/-- Exhaustive description of a successful classification: either the
bulleted branch fired, with the stored line depending on whether the
original untrimmed line starts with the bullet marker, or the bare-url
branch fired. -/
theorem classifyLine_cases (l u c : Str) (h : classifyLine l = some (u, c)) :
    u ≠ [] ∧
    ((strStartsWith (trim l) bulletSp &&
        (strContains (trim l) litHttp || strContains (trim l) litHttps)) = true ∧
      u = trim (replaceFirst (trim l) bulletSp []) ∧
      c = (if strStartsWith l bulletSp = true then l else bulletSp ++ u)
    ∨
    (strStartsWith (trim l) bulletSp &&
        (strContains (trim l) litHttp || strContains (trim l) litHttps)) = false ∧
      (strStartsWith (trim l) litHttp || strStartsWith (trim l) litHttps) = true ∧
      u = trim l ∧ c = bulletSp ++ u) := by
  simp only [classifyLine] at h
  by_cases hb : (strStartsWith (trim l) bulletSp &&
      (strContains (trim l) litHttp || strContains (trim l) litHttps)) = true
  · rw [if_pos hb] at h
    by_cases hu : trim (replaceFirst (trim l) bulletSp []) = []
    · simp [hu] at h
    · rw [if_neg hu] at h
      have h2 : (trim (replaceFirst (trim l) bulletSp []),
          if strStartsWith l bulletSp = true then l
          else bulletSp ++ trim (replaceFirst (trim l) bulletSp [])) = (u, c) :=
        Option.some.inj h
      obtain ⟨e1, e2⟩ := Prod.mk.injEq .. |>.mp h2
      refine ⟨e1 ▸ hu, Or.inl ⟨hb, e1.symm, ?_⟩⟩
      rw [← e1]
      exact e2.symm
  · rw [if_neg hb] at h
    by_cases hh : (strStartsWith (trim l) litHttp || strStartsWith (trim l) litHttps) = true
    · rw [if_pos hh] at h
      by_cases hu : trim l = []
      · simp [hu] at h
      · rw [if_neg hu] at h
        have h2 : (trim l, bulletSp ++ trim l) = (u, c) := Option.some.inj h
        obtain ⟨e1, e2⟩ := Prod.mk.injEq .. |>.mp h2
        refine ⟨e1 ▸ hu, Or.inr ⟨by simpa using hb, hh, e1.symm, ?_⟩⟩
        rw [← e1]
        exact e2.symm
    · rw [if_neg hh] at h
      simp at h

/-- A leading segment occurs as a segment. -/
theorem strContains_of_startsWith (s p : Str) (h : strStartsWith s p = true) :
    strContains s p = true := by
  rcases (strStartsWith_iff s p).mp h with ⟨t, ht⟩
  exact (strContains_iff s p).mpr ⟨[], t, by simp [ht]⟩

/-- Containment extends to a larger string on the left. -/
theorem strContains_append_left (x y p : Str) (h : strContains y p = true) :
    strContains (x ++ y) p = true := by
  rcases (strContains_iff y p).mp h with ⟨a, b, hab⟩
  exact (strContains_iff (x ++ y) p).mpr ⟨x ++ a, b, by simp [hab]⟩

/-- Containment in a cons whose head differs from the pattern head drops
to the tail. -/
theorem strContains_cons_ne (c : Char) (rest p : Str) (pc : Char) (pr : Str)
    (hp : p = pc :: pr) (hne : c ≠ pc) (h : strContains (c :: rest) p = true) :
    strContains rest p = true := by
  simp only [strContains] at h
  rcases Bool.or_eq_true_iff.mp h with h3 | h3
  · rcases (strStartsWith_iff (c :: rest) p).mp h3 with ⟨tt, htt⟩
    rw [hp] at htt
    injection htt with h4 h5
    exact absurd h4 hne
  · exact h3

/-- Left trimming keeps a segment occurrence of a pattern whose head is
not whitespace. -/
theorem strContains_trimLeft (s p : Str) (pc : Char) (pr : Str) (hp : p = pc :: pr)
    (hpc : isJsWs pc = false) (h : strContains s p = true) :
    strContains (trimLeft s) p = true := by
  induction s with
  | nil => simpa [trimLeft] using h
  | cons c rest ih =>
    by_cases hc : isJsWs c
    · have hne : c ≠ pc := by
        intro e
        rw [e, hpc] at hc
        simp at hc
      have h4 := ih (strContains_cons_ne c rest p pc pr hp hne h)
      simpa [trimLeft, List.dropWhile_cons, hc] using h4
    · simpa [trimLeft, List.dropWhile_cons, hc] using h

/-- Right trimming keeps a final segment occurrence of a pattern whose
last character is not whitespace. -/
theorem trimRight_append_seg (x p b : Str) (qc : Char) (qr : Str)
    (hq : p.reverse = qc :: qr) (hqc : isJsWs qc = false) :
    ∃ b2, trimRight (x ++ (p ++ b)) = x ++ (p ++ b2) := by
  have hrev : (x ++ (p ++ b)).reverse = b.reverse ++ (p.reverse ++ x.reverse) := by
    simp
  rw [trimRight, hrev, List.dropWhile_append]
  by_cases hbe : (b.reverse.dropWhile isJsWs).isEmpty = true
  · rw [if_pos hbe, hq, List.cons_append, List.dropWhile_cons, if_neg (by simp [hqc])]
    refine ⟨[], ?_⟩
    rw [show qc :: (qr ++ x.reverse) = (qc :: qr) ++ x.reverse from rfl, ← hq]
    simp
  · rw [if_neg hbe]
    refine ⟨(b.reverse.dropWhile isJsWs).reverse, ?_⟩
    simp

/-- Trimming keeps a segment occurrence of a pattern that is nonempty and
free of whitespace. -/
theorem strContains_trim (s p : Str) (hne : p ≠ []) (hws : ∀ c ∈ p, isJsWs c = false)
    (h : strContains s p = true) : strContains (trim s) p = true := by
  obtain ⟨pc, pr, hp⟩ : ∃ pc pr, p = pc :: pr := by
    cases p with
    | nil => exact absurd rfl hne
    | cons x xs => exact ⟨x, xs, rfl⟩
  have hpc : isJsWs pc = false := hws pc (by simp [hp])
  have h1 : strContains (trimLeft s) p = true := strContains_trimLeft s p pc pr hp hpc h
  rcases (strContains_iff (trimLeft s) p).mp h1 with ⟨a, b, hab⟩
  obtain ⟨qc, qr, hq⟩ : ∃ qc qr, p.reverse = qc :: qr := by
    cases hrv : p.reverse with
    | nil => exact absurd (by simpa using congrArg List.reverse hrv) hne
    | cons x xs => exact ⟨x, xs, rfl⟩
  have hqc : isJsWs qc = false := hws qc (by
    have : qc ∈ p.reverse := by simp [hq]
    simpa using this)
  obtain ⟨b2, hb2⟩ := trimRight_append_seg a p b qc qr hq hqc
  rw [trim, hab, hb2]
  exact (strContains_iff _ p).mpr ⟨a, b2, rfl⟩

/-- Stripping the bullet marker keeps a contained pattern that starts
with the letter h. -/
theorem strContains_replace_bullet (t p : Str) (pr : Str) (hp : p = 'h' :: pr)
    (hb : strStartsWith t bulletSp = true) (hc : strContains t p = true) :
    strContains (replaceFirst t bulletSp []) p = true := by
  rcases (strStartsWith_iff t bulletSp).mp hb with ⟨r0, hr0⟩
  have ht : t = '*' :: ' ' :: r0 := hr0
  have hrep : replaceFirst t bulletSp [] = r0 := by
    rw [replaceFirst_startsWith t bulletSp [] hb, ht]
    rfl
  rw [hrep]
  have hc2 : strContains ('*' :: ' ' :: r0) p = true := ht ▸ hc
  have h1 : strContains (' ' :: r0) p = true :=
    strContains_cons_ne '*' (' ' :: r0) p 'h' pr hp (by decide) hc2
  exact strContains_cons_ne ' ' r0 p 'h' pr hp (by decide) h1

/-- The extracted url of a classified line is trimmed. -/
theorem classifyLine_url_trim (l u c : Str) (h : classifyLine l = some (u, c)) :
    trim u = u := by
  rcases (classifyLine_cases l u c h).2 with ⟨h1, h2, h3⟩ | ⟨h1, h2, h3, h4⟩
  · rw [h2, trim_idem]
  · rw [h3, trim_idem]

/-- The extracted url of a classified line contains a scheme marker. -/
theorem classifyLine_url_contains (l u c : Str) (h : classifyLine l = some (u, c)) :
    (strContains u litHttp || strContains u litHttps) = true := by
  rcases (classifyLine_cases l u c h).2 with ⟨h1, h2, h3⟩ | ⟨h1, h2, h3, h4⟩
  · rcases Bool.and_eq_true_iff.mp h1 with ⟨hsw, hcont⟩
    rcases Bool.or_eq_true_iff.mp hcont with hcc | hcc
    · refine Bool.or_eq_true_iff.mpr (Or.inl ?_)
      rw [h2]
      refine strContains_trim _ litHttp (by decide) (by decide) ?_
      exact strContains_replace_bullet (trim l) litHttp (chars ("ttp://")) rfl hsw hcc
    · refine Bool.or_eq_true_iff.mpr (Or.inr ?_)
      rw [h2]
      refine strContains_trim _ litHttps (by decide) (by decide) ?_
      exact strContains_replace_bullet (trim l) litHttps (chars ("ttps://")) rfl hsw hcc
  · rcases Bool.or_eq_true_iff.mp h2 with hcc | hcc
    · exact Bool.or_eq_true_iff.mpr (Or.inl (h3 ▸ strContains_of_startsWith _ _ hcc))
    · exact Bool.or_eq_true_iff.mpr (Or.inr (h3 ▸ strContains_of_startsWith _ _ hcc))

/-- The stored line of a classified line is the original line or the
rebuilt bulleted line. -/
theorem classifyLine_canon (l u c : Str) (h : classifyLine l = some (u, c)) :
    c = l ∨ c = bulletSp ++ u := by
  rcases (classifyLine_cases l u c h).2 with ⟨h1, h2, h3⟩ | ⟨h1, h2, h3, h4⟩
  · by_cases hs : strStartsWith l bulletSp = true
    · left; rw [h3, if_pos hs]
    · right; rw [h3, if_neg hs]
  · right; exact h4

/-- Classification of a newline-free line produces a newline-free url
and stored line. -/
theorem classifyLine_no_nl (l u c : Str) (h : classifyLine l = some (u, c))
    (hl : '\n' ∉ l) : '\n' ∉ u ∧ '\n' ∉ c := by
  have hu : '\n' ∉ u := by
    rcases (classifyLine_cases l u c h).2 with ⟨h1, h2, h3⟩ | ⟨h1, h2, h3, h4⟩
    · intro hm
      rw [h2] at hm
      exact hl (mem_trimLeft l '\n'
        (mem_trimRight _ '\n' (mem_replaceFirst_nil _ _ '\n' (mem_trim _ '\n' hm))))
    · intro hm
      rw [h3] at hm
      exact hl (mem_trim l '\n' hm)
  refine ⟨hu, ?_⟩
  rcases classifyLine_canon l u c h with hc | hc
  · rw [hc]; exact hl
  · rw [hc]
    intro hm
    rcases List.mem_append.mp hm with hm1 | hm1
    · simp [bulletSp, chars] at hm1
    · exact hu hm1

/-- A rebuilt bulleted line classifies to itself. -/
theorem classifyLine_bullet (u : Str) (hu : trim u = u) (hne : u ≠ [])
    (hcont : (strContains u litHttp || strContains u litHttps) = true) :
    classifyLine (bulletSp ++ u) = some (u, bulletSp ++ u) := by
  have htr : trim (bulletSp ++ u) = bulletSp ++ u := trim_bullet_append u hu hne
  have hsw : strStartsWith (bulletSp ++ u) bulletSp = true :=
    (strStartsWith_iff (bulletSp ++ u) bulletSp).mpr ⟨u, rfl⟩
  have hcont2 : (strContains (bulletSp ++ u) litHttp ||
      strContains (bulletSp ++ u) litHttps) = true := by
    rcases Bool.or_eq_true_iff.mp hcont with h | h
    · exact Bool.or_eq_true_iff.mpr (Or.inl (strContains_append_left bulletSp u litHttp h))
    · exact Bool.or_eq_true_iff.mpr (Or.inr (strContains_append_left bulletSp u litHttps h))
  have hrep : replaceFirst (bulletSp ++ u) bulletSp [] = u := by
    rw [replaceFirst_startsWith (bulletSp ++ u) bulletSp [] hsw]
    rfl
  simp only [classifyLine, htr, hsw, hcont2, hrep, hu]
  simp [hne]

/-- The stored line of a classified line classifies back to the same url
and the same stored line. -/
theorem classifyLine_roundtrip (l u c : Str) (h : classifyLine l = some (u, c)) :
    classifyLine c = some (u, c) := by
  rcases classifyLine_canon l u c h with hc | hc
  · rw [hc]; rw [hc] at h; exact h
  · rw [hc]
    exact classifyLine_bullet u (classifyLine_url_trim l u c h)
      (classifyLine_cases l u c h).1 (classifyLine_url_contains l u c h)

/-- The url recovered from a stored line. -/
theorem lineUrl_of_classify (l u c : Str) (h : classifyLine l = some (u, c)) :
    lineUrl c = u := by
  rw [lineUrl, classifyLine_roundtrip l u c h]

/-- Overwriting assignment preserves a property of all entries. -/
theorem mapPut_entry_prop (m : List (Str × Str)) (k v : Str)
    (P : Str × Str → Prop) (hm : ∀ e ∈ m, P e) (hkv : P (k, v)) :
    ∀ e ∈ mapPut m k v, P e := by
  induction m with
  | nil =>
    intro e he
    simp only [mapPut, List.mem_singleton] at he
    rw [he]
    exact hkv
  | cons x rest ih =>
    obtain ⟨k2, v2⟩ := x
    intro e he
    simp only [mapPut] at he
    by_cases hk : k2 = k
    · rw [if_pos hk] at he
      rcases List.mem_cons.mp he with h1 | h1
      · rw [h1, hk]
        exact hkv
      · exact hm e (List.mem_cons_of_mem _ h1)
    · rw [if_neg hk] at he
      rcases List.mem_cons.mp he with h1 | h1
      · rw [h1]
        exact hm (k2, v2) (by simp)
      · exact ih (fun e2 he2 => hm e2 (List.mem_cons_of_mem _ he2)) e h1

/-- The key list after an overwriting assignment. -/
theorem mapPut_keys (m : List (Str × Str)) (k v : Str) :
    (mapPut m k v).map Prod.fst =
      (if k ∈ m.map Prod.fst then m.map Prod.fst else m.map Prod.fst ++ [k]) := by
  induction m with
  | nil => simp [mapPut]
  | cons x rest ih =>
    obtain ⟨k2, v2⟩ := x
    by_cases hk : k2 = k
    · simp [mapPut, hk]
    · simp only [mapPut, if_neg hk, List.map_cons, ih]
      by_cases hmem : k ∈ rest.map Prod.fst
      · simp [hmem, Ne.symm hk]
      · simp [hmem, Ne.symm hk]

/-- Assignment of an absent key appends the new entry. -/
theorem mapPut_not_mem (m : List (Str × Str)) (k v : Str)
    (h : k ∉ m.map Prod.fst) : mapPut m k v = m ++ [(k, v)] := by
  induction m with
  | nil => simp [mapPut]
  | cons x rest ih =>
    obtain ⟨k2, v2⟩ := x
    have hk : k2 ≠ k := by
      intro e
      exact h (by simp [e])
    simp only [mapPut, if_neg hk, List.cons_append, List.cons.injEq, true_and]
    exact ih (fun hm => h (by simp [hm]))

/-- Lookup of a present key under duplicate-free keys. -/
theorem mapGet_of_mem (m : List (Str × Str)) (k v : Str)
    (hnd : (m.map Prod.fst).Nodup) (hm : (k, v) ∈ m) : mapGet m k = v := by
  induction m with
  | nil => simp at hm
  | cons x rest ih =>
    obtain ⟨k2, v2⟩ := x
    rcases List.mem_cons.mp hm with h1 | h1
    · obtain ⟨e1, e2⟩ := Prod.mk.injEq .. |>.mp h1
      rw [mapGet, List.find?_cons]
      have : (k2 == k) = true := by simp [e1]
      rw [this]
      exact e2.symm
    · have hnd2 : (k2 :: rest.map Prod.fst).Nodup := by simpa using hnd
      have hk2 : k2 ≠ k := by
        intro e
        have hkm : k ∈ rest.map Prod.fst := List.mem_map.mpr ⟨(k, v), h1, rfl⟩
        have hnotin := (List.nodup_cons.mp hnd2).1
        rw [e] at hnotin
        exact hnotin hkm
      rw [mapGet, List.find?_cons]
      have : (k2 == k) = false := by simp [hk2]
      rw [this]
      have ihr := ih (by simpa using (List.nodup_cons.mp hnd2).2) h1
      rw [mapGet] at ihr
      exact ihr

/-- Group insertion preserves a property of all members tagged by their
key. -/
theorem addToGroup_entry_prop (gs : List (Str × List Str)) (k v : Str)
    (P : Str → Str → Prop) (hgs : ∀ e ∈ gs, ∀ x ∈ e.2, P e.1 x) (hkv : P k v) :
    ∀ e ∈ addToGroup gs k v, ∀ x ∈ e.2, P e.1 x := by
  induction gs with
  | nil =>
    intro e he x hx
    simp only [addToGroup, List.mem_singleton] at he
    rw [he] at hx ⊢
    simp at hx
    rw [hx]
    exact hkv
  | cons g rest ih =>
    obtain ⟨k2, vs⟩ := g
    intro e he x hx
    simp only [addToGroup] at he
    by_cases hk : k2 = k
    · rw [if_pos hk] at he
      rcases List.mem_cons.mp he with h1 | h1
      · rw [h1] at hx ⊢
        rcases List.mem_append.mp hx with h2 | h2
        · exact hgs (k2, vs) (by simp) x h2
        · simp at h2
          rw [h2, hk]
          exact hkv
      · exact hgs e (List.mem_cons_of_mem _ h1) x hx
    · rw [if_neg hk] at he
      rcases List.mem_cons.mp he with h1 | h1
      · rw [h1] at hx ⊢
        exact hgs (k2, vs) (by simp) x hx
      · exact ih (fun e2 he2 => hgs e2 (List.mem_cons_of_mem _ he2)) e h1 x hx

/-- The key list after a group insertion. -/
theorem addToGroup_keys (gs : List (Str × List Str)) (k v : Str) :
    (addToGroup gs k v).map Prod.fst =
      (if k ∈ gs.map Prod.fst then gs.map Prod.fst else gs.map Prod.fst ++ [k]) := by
  induction gs with
  | nil => simp [addToGroup]
  | cons g rest ih =>
    obtain ⟨k2, vs⟩ := g
    by_cases hk : k2 = k
    · simp [addToGroup, hk]
    · simp only [addToGroup, if_neg hk, List.map_cons, ih]
      by_cases hmem : k ∈ rest.map Prod.fst
      · simp [hmem, Ne.symm hk]
      · simp [hmem, Ne.symm hk]

/-- Group lookup of a present key under duplicate-free keys. -/
theorem alGet_of_mem (gs : List (Str × List Str)) (k : Str) (vs : List Str)
    (hnd : (gs.map Prod.fst).Nodup) (hm : (k, vs) ∈ gs) : alGet gs k = vs := by
  induction gs with
  | nil => simp at hm
  | cons x rest ih =>
    obtain ⟨k2, vs2⟩ := x
    rcases List.mem_cons.mp hm with h1 | h1
    · obtain ⟨e1, e2⟩ := Prod.mk.injEq .. |>.mp h1
      rw [alGet, List.find?_cons]
      have : (k2 == k) = true := by simp [e1]
      rw [this]
      exact e2.symm
    · have hnd2 : (k2 :: rest.map Prod.fst).Nodup := by simpa using hnd
      have hk2 : k2 ≠ k := by
        intro e
        have hkm : k ∈ rest.map Prod.fst := List.mem_map.mpr ⟨(k, vs), h1, rfl⟩
        have hnotin := (List.nodup_cons.mp hnd2).1
        rw [e] at hnotin
        exact hnotin hkm
      rw [alGet, List.find?_cons]
      have : (k2 == k) = false := by simp [hk2]
      rw [this]
      have ihr := ih (by simpa using (List.nodup_cons.mp hnd2).2) h1
      rw [alGet] at ihr
      exact ihr

/-- Adding an absent element to the set appends it. -/
theorem setAdd_not_mem (s : List Str) (x : Str) (h : x ∉ s) : setAdd s x = s ++ [x] := by
  simp [setAdd, h]

/-- The splitter search on a cons. -/
theorem findIdx?_isSplit_cons (x : Str) (rest : List Str) :
    List.findIdx? isSplitLine (x :: rest) =
      if isSplitLine x then some 0
      else (List.findIdx? isSplitLine rest).map (fun i => i + 1) := by
  rw [List.findIdx?_cons]
  by_cases h : isSplitLine x
  · simp [h]
  · simp [h, List.findIdx?_succ]

/-- A found splitter index is in range. -/
theorem findIdx?_isSplit_lt (lines : List Str) (i : Nat)
    (h : List.findIdx? isSplitLine lines = some i) : i < lines.length := by
  induction lines generalizing i with
  | nil => simp [List.findIdx?] at h
  | cons x rest ih =>
    rw [findIdx?_isSplit_cons] at h
    by_cases hx : isSplitLine x
    · rw [if_pos hx] at h
      injection h with h1
      rw [← h1]
      simp
    · rw [if_neg hx] at h
      cases hr : List.findIdx? isSplitLine rest with
      | none => rw [hr] at h; simp at h
      | some j =>
        rw [hr] at h
        injection h with h1
        rw [← h1]
        have := ih j hr
        simpa using this

/-- The split index is in range. -/
theorem findSplitIdx_le (lines : List Str) : findSplitIdx lines ≤ lines.length := by
  rw [findSplitIdx]
  cases h : List.findIdx? isSplitLine lines with
  | none => simp
  | some i => exact le_of_lt (findIdx?_isSplit_lt lines i h)

/-- Every header line fails the splitter predicate. -/
theorem take_findSplitIdx (lines : List Str) (l : Str)
    (hl : l ∈ lines.take (findSplitIdx lines)) : isSplitLine l = false := by
  induction lines generalizing l with
  | nil => simp at hl
  | cons x rest ih =>
    rw [findSplitIdx, findIdx?_isSplit_cons] at hl
    by_cases hx : isSplitLine x
    · rw [if_pos hx] at hl
      simp at hl
    · rw [if_neg hx] at hl
      cases hr : List.findIdx? isSplitLine rest with
      | none =>
        rw [hr] at hl
        simp at hl
      | some i =>
        rw [hr] at hl
        have hl2 : l ∈ List.take (i + 1) (x :: rest) := hl
        rw [List.take_succ_cons] at hl2
        rcases List.mem_cons.mp hl2 with h1 | h1
        · rw [h1]
          simpa using hx
        · exact ih l (by rw [findSplitIdx, hr]; exact h1)

/-- The splitter search on a header followed by a matching line. -/
theorem findIdx?_isSplit_append (H : List Str) (s : Str) (t : List Str)
    (hH : ∀ l ∈ H, isSplitLine l = false) (hs : isSplitLine s = true) :
    List.findIdx? isSplitLine (H ++ s :: t) = some H.length := by
  induction H with
  | nil => simp [findIdx?_isSplit_cons, hs]
  | cons x xs ih =>
    have hx : isSplitLine x = false := hH x (by simp)
    rw [List.cons_append, findIdx?_isSplit_cons, if_neg (by simp [hx])]
    rw [ih (fun l hl => hH l (List.mem_cons_of_mem _ hl))]
    simp

/-- The split index of a header followed by a matching line. -/
theorem findSplitIdx_append (H : List Str) (s : Str) (t : List Str)
    (hH : ∀ l ∈ H, isSplitLine l = false) (hs : isSplitLine s = true) :
    findSplitIdx (H ++ s :: t) = H.length := by
  rw [findSplitIdx, findIdx?_isSplit_append H s t hH hs]

/-- One extraction step on a non-link line. -/
theorem extractStep_none (acc : List Str × List Str × List (Str × Str)) (line : Str)
    (h : classifyLine line = none) : extractStep acc line = acc := by
  simp [extractStep, h]

/-- One extraction step on a link line. -/
theorem extractStep_some (acc : List Str × List Str × List (Str × Str)) (line u c : Str)
    (h : classifyLine line = some (u, c)) :
    extractStep acc line = (acc.1 ++ [c], setAdd acc.2.1 u, mapPut acc.2.2 u c) := by
  simp [extractStep, h]

/-- Invariants of the extraction loop: the map keys stay duplicate-free,
every stored entry classifies back to itself and is newline-free, the
url set stays duplicate-free, and every collected url is a map key. -/
theorem extractLinks_inv (body : List Str) (hbody : ∀ line ∈ body, '\n' ∉ line) :
    ∀ acc : List Str × List Str × List (Str × Str),
      (acc.2.2.map Prod.fst).Nodup →
      (∀ e ∈ acc.2.2, classifyLine e.2 = some (e.1, e.2) ∧ '\n' ∉ e.2) →
      acc.2.1.Nodup →
      (∀ u ∈ acc.2.1, u ∈ acc.2.2.map Prod.fst) →
      ((body.foldl extractStep acc).2.2.map Prod.fst).Nodup ∧
      (∀ e ∈ (body.foldl extractStep acc).2.2,
        classifyLine e.2 = some (e.1, e.2) ∧ '\n' ∉ e.2) ∧
      (body.foldl extractStep acc).2.1.Nodup ∧
      (∀ u ∈ (body.foldl extractStep acc).2.1,
        u ∈ (body.foldl extractStep acc).2.2.map Prod.fst) := by
  induction body with
  | nil =>
    intro acc h1 h2 h3 h4
    exact ⟨h1, h2, h3, h4⟩
  | cons line rest ih =>
    intro acc h1 h2 h3 h4
    have hline : '\n' ∉ line := hbody line (by simp)
    have hrest : ∀ l ∈ rest, '\n' ∉ l := fun l hl => hbody l (List.mem_cons_of_mem _ hl)
    rw [List.foldl_cons]
    cases hcl : classifyLine line with
    | none =>
      rw [extractStep_none acc line hcl]
      exact ih hrest acc h1 h2 h3 h4
    | some p =>
      obtain ⟨u, c⟩ := p
      rw [extractStep_some acc line u c hcl]
      apply ih hrest
      · by_cases hmem : u ∈ acc.2.2.map Prod.fst
        · rw [mapPut_keys, if_pos hmem]
          exact h1
        · rw [mapPut_keys, if_neg hmem]
          refine List.nodup_append.mpr ⟨h1, by simp, ?_⟩
          intro a ha hb
          rw [List.mem_singleton] at hb
          rw [hb] at ha
          exact hmem ha
      · exact mapPut_entry_prop acc.2.2 u c
          (fun e => classifyLine e.2 = some (e.1, e.2) ∧ '\n' ∉ e.2) h2
          ⟨classifyLine_roundtrip line u c hcl, (classifyLine_no_nl line u c hcl hline).2⟩
      · by_cases hmem : u ∈ acc.2.1
        · simpa [setAdd, hmem] using h3
        · rw [setAdd_not_mem acc.2.1 u hmem]
          refine List.nodup_append.mpr ⟨h3, by simp, ?_⟩
          intro a ha hb
          rw [List.mem_singleton] at hb
          rw [hb] at ha
          exact hmem ha
      · intro w hw
        have hw2 : w ∈ acc.2.1 ∨ w = u := by
          by_cases hmem : u ∈ acc.2.1
          · left
            simpa [setAdd, hmem] using hw
          · rw [setAdd_not_mem acc.2.1 u hmem] at hw
            rcases List.mem_append.mp hw with h5 | h5
            · left; exact h5
            · right; simpa using h5
        rcases hw2 with h5 | h5
        · have h6 := h4 w h5
          by_cases hmem : u ∈ acc.2.2.map Prod.fst
          · rw [mapPut_keys, if_pos hmem]
            exact h6
          · rw [mapPut_keys, if_neg hmem]
            exact List.mem_append.mpr (Or.inl h6)
        · rw [h5]
          by_cases hmem : u ∈ acc.2.2.map Prod.fst
          · rw [mapPut_keys, if_pos hmem]
            exact hmem
          · rw [mapPut_keys, if_neg hmem]
            simp

/-- The extraction loop over lines that each classify to themselves with
pairwise distinct urls appends everything in order. -/
theorem foldl_extract_selfclassify (S : List Str) :
    ∀ (links urls : List Str) (m : List (Str × Str)),
      (∀ l ∈ S, classifyLine l = some (lineUrl l, l)) →
      (∀ l ∈ S, lineUrl l ∉ urls) →
      (S.map lineUrl).Nodup →
      m.map Prod.fst = urls →
      S.foldl extractStep (links, urls, m) =
        (links ++ S, urls ++ S.map lineUrl, m ++ S.map (fun l => (lineUrl l, l))) := by
  induction S with
  | nil =>
    intro links urls m h1 h2 h3 h4
    simp
  | cons l rest ih =>
    intro links urls m h1 h2 h3 h4
    have hcl := h1 l (by simp)
    rw [List.foldl_cons, extractStep_some (links, urls, m) l (lineUrl l) l hcl]
    have hnm : lineUrl l ∉ urls := h2 l (by simp)
    have hmap : (lineUrl l :: rest.map lineUrl).Nodup := by simpa using h3
    have hhd : lineUrl l ∉ rest.map lineUrl := (List.nodup_cons.mp hmap).1
    have h3r : (rest.map lineUrl).Nodup := (List.nodup_cons.mp hmap).2
    have hset : setAdd urls (lineUrl l) = urls ++ [lineUrl l] := setAdd_not_mem urls _ hnm
    have hput : mapPut m (lineUrl l) l = m ++ [(lineUrl l, l)] := by
      refine mapPut_not_mem m (lineUrl l) l ?_
      rw [h4]
      exact hnm
    have hrec := ih (links ++ [l]) (urls ++ [lineUrl l]) (m ++ [(lineUrl l, l)])
      (fun l2 hl2 => h1 l2 (List.mem_cons_of_mem l hl2))
      (by
        intro l2 hl2 hmem
        rcases List.mem_append.mp hmem with h5 | h5
        · exact h2 l2 (List.mem_cons_of_mem l hl2) h5
        · rw [List.mem_singleton] at h5
          exact hhd (h5 ▸ List.mem_map_of_mem lineUrl hl2))
      h3r
      (by simp [h4])
    rw [hset, hput, hrec]
    simp

/-- Folding accumulation by appends is flattening. -/
theorem foldl_append_eq_flatten (f : Str → List Str) (keys : List Str) (init : List Str) :
    keys.foldl (fun acc d => acc ++ f d) init = init ++ (keys.map f).flatten := by
  induction keys generalizing init with
  | nil => simp
  | cons d rest ih =>
    rw [List.foldl_cons, ih]
    simp

/-- Running total of a counting table after a bump. -/
theorem tblTotal_bump (t : List (Str × Nat)) (k : Str) :
    tblTotal (tblBump t k) = tblTotal t + 1 := by
  induction t with
  | nil => simp [tblBump, tblTotal]
  | cons e rest ih =>
    obtain ⟨k2, n⟩ := e
    by_cases h : k2 = k
    · simp only [tblBump, if_pos h, tblTotal, List.map_cons, List.sum_cons]
      simp [tblTotal] at ih ⊢
      omega
    · simp only [tblBump, if_neg h, tblTotal, List.map_cons, List.sum_cons]
      simp [tblTotal] at ih ⊢
      omega

/-- One statistics step on a parse success. -/
theorem statsStep_some (acc : List (Str × Nat) × List (Str × Nat) × List Str)
    (url host : Str) (h : parseHostname url = some host) :
    statsStep acc url =
      (tblBump acc.1 (stripWww host), tblBump acc.2.1 (tldOf (stripWww host)), acc.2.2) := by
  simp [statsStep, h]

/-- One statistics step on a parse failure. -/
theorem statsStep_none (acc : List (Str × Nat) × List (Str × Nat) × List Str)
    (url : Str) (h : parseHostname url = none) :
    statsStep acc url = (acc.1, acc.2.1, acc.2.2 ++ [url]) := by
  simp [statsStep, h]

/-- The statistics fold: broken links are exactly the parse failures in
order, and each table holds one count per parse success. -/
theorem statsTables_fold (urls : List Str) :
    ∀ (d t : List (Str × Nat)) (b : List Str),
      (urls.foldl statsStep (d, t, b)).2.2
        = b ++ urls.filter (fun u => (parseHostname u).isNone) ∧
      tblTotal (urls.foldl statsStep (d, t, b)).1
        = tblTotal d + (urls.filter (fun u => (parseHostname u).isSome)).length ∧
      tblTotal (urls.foldl statsStep (d, t, b)).2.1
        = tblTotal t + (urls.filter (fun u => (parseHostname u).isSome)).length := by
  induction urls with
  | nil =>
    intro d t b
    simp
  | cons u rest ih =>
    intro d t b
    rw [List.foldl_cons]
    cases hp : parseHostname u with
    | some host =>
      rw [statsStep_some (d, t, b) u host hp]
      obtain ⟨ih1, ih2, ih3⟩ :=
        ih (tblBump d (stripWww host)) (tblBump t (tldOf (stripWww host))) b
      refine ⟨?_, ?_, ?_⟩
      · rw [ih1, List.filter_cons]
        simp [hp]
      · rw [ih2, tblTotal_bump, List.filter_cons]
        simp only [hp, Option.isSome_some, if_true, List.length_cons]
        omega
      · rw [ih3, tblTotal_bump, List.filter_cons]
        simp only [hp, Option.isSome_some, if_true, List.length_cons]
        omega
    | none =>
      rw [statsStep_none (d, t, b) u hp]
      obtain ⟨ih1, ih2, ih3⟩ := ih d t (b ++ [u])
      refine ⟨?_, ?_, ?_⟩
      · rw [ih1, List.filter_cons]
        simp [hp]
      · rw [ih2, List.filter_cons]
        simp [hp]
      · rw [ih3, List.filter_cons]
        simp [hp]

/-- Two pointwise exclusive filters keep at most all elements. -/
theorem filter_disjoint_length (p q : Str → Bool) (l : List Str)
    (h : ∀ x ∈ l, p x = true → q x = false) :
    (l.filter p).length + (l.filter q).length ≤ l.length := by
  induction l with
  | nil => simp
  | cons x rest ih =>
    have ihr := ih (fun y hy => h y (List.mem_cons_of_mem x hy))
    by_cases hp : p x = true
    · have hq : q x = false := h x (by simp) hp
      simp only [List.filter_cons, hp, hq, if_true, if_false, List.length_cons,
        List.length, Bool.false_eq_true]
      simp
      omega
    · by_cases hq : q x = true
      · simp only [List.filter_cons, hq, if_true]
        simp [hp]
        omega
      · simp only [List.filter_cons]
        simp [hp, hq]
        omega

/-- A string with the http marker as a leading segment does not have the
https marker as a leading segment. -/
theorem https_not_of_http (u : Str) (h : strStartsWith u litHttp = true) :
    strStartsWith u litHttps = false := by
  rcases (strStartsWith_iff u litHttp).mp h with ⟨t, ht⟩
  by_contra h2
  have h3 : strStartsWith u litHttps = true := by
    cases h4 : strStartsWith u litHttps with
    | true => rfl
    | false => exact absurd h4 h2
  rcases (strStartsWith_iff u litHttps).mp h3 with ⟨t2, ht2⟩
  have e0 : litHttp ++ t = litHttps ++ t2 := ht.symm.trans ht2
  have e : ('h' :: 't' :: 't' :: 'p' :: ':' :: '/' :: '/' :: t)
      = ('h' :: 't' :: 't' :: 'p' :: 's' :: ':' :: '/' :: '/' :: t2) := e0
  injection e with a1 e
  injection e with a2 e
  injection e with a3 e
  injection e with a4 e
  injection e with a5 e
  exact absurd a5 (by decide)

/-- A startsWith test fails on a head mismatch. -/
theorem strStartsWith_cons_ne (c : Char) (s : Str) (pc : Char) (pr : Str)
    (hne : c ≠ pc) : strStartsWith (c :: s) (pc :: pr) = false := by
  simp [strStartsWith, hne]

/-- Right trim keeps the head of a string whose head is not
whitespace. -/
theorem trimRight_cons_head (c : Char) (s : Str) (hc : isJsWs c = false) :
    ∃ r2, trimRight (c :: s) = c :: r2 := by
  rw [trimRight]
  have hrev : (c :: s).reverse = s.reverse ++ [c] := by simp
  rw [hrev, List.dropWhile_append]
  by_cases hbe : (s.reverse.dropWhile isJsWs).isEmpty = true
  · rw [if_pos hbe]
    refine ⟨[], ?_⟩
    simp [List.dropWhile_cons, hc]
  · rw [if_neg hbe]
    refine ⟨(s.reverse.dropWhile isJsWs).reverse, ?_⟩
    simp

/-- C1 counterexample: on the scenario-1 document the flat transform
drops the trailing newline, because the final empty line of the body is
not a link line and body lines that do not classify as links are
discarded; the output is not the text the claim specifies. -/
theorem c1_counterexample :
    sortLinksText (chars ("# Links\n* https://b.com/x\n* https://a.com/y\n")) false =
      chars ("# Links\n* https://a.com/y\n* https://b.com/x") ∧
    sortLinksText (chars ("# Links\n* https://b.com/x\n* https://a.com/y\n")) false ≠
      chars ("# Links\n* https://a.com/y\n* https://b.com/x\n") := by
  decide

/-- C1 (amended): on the scenario-1 document the flat transform produces
the sorted text without a trailing newline, and the statistics are
totalLinks two, uniqueLinks two, duplicates zero. -/
theorem c1_flat_scenario :
    sortLinksText (chars ("# Links\n* https://b.com/x\n* https://a.com/y\n")) false =
      chars ("# Links\n* https://a.com/y\n* https://b.com/x") ∧
    (collectStatistics (chars ("# Links\n* https://b.com/x\n* https://a.com/y\n"))).totalLinks = 2 ∧
    (collectStatistics (chars ("# Links\n* https://b.com/x\n* https://a.com/y\n"))).uniqueLinks = 2 ∧
    (collectStatistics (chars ("# Links\n* https://b.com/x\n* https://a.com/y\n"))).duplicates = 0 := by
  decide

/-- C3: evaluation of the transform at a no-link document.  The claim
says the header equals the whole document, so the output equals the
input; the code instead leaves headerEndIndex at zero when no line
matches the splitter, takes an empty header, extracts nothing, and
rewrites the file to the empty string, erasing the document. -/
theorem c3_no_link_document_erased :
    sortLinksText (chars ("hello\nworld\n")) false = [] ∧
    (collectStatistics (chars ("hello\nworld\n"))).uniqueLinks = 0 ∧
    flatSortedLinks (chars ("hello\nworld\n")) = [] ∧
    sortLinksText (chars ("hello\nworld\n")) false ≠ chars ("hello\nworld\n") := by
  decide

/-- C4 counterexample: the url in a bulleted line whose structural parse
fails is recorded in brokenLinks and kept out of the domain and
top-level-domain tables, but the protocol table counts it anyway,
because protocol counts test only the literal prefix of the string. -/
theorem c4_counterexample :
    parseHostname (chars ("http://bad::url")) = none ∧
    (collectStatistics (chars ("* http://bad::url\n"))).brokenLinks
      = [chars ("http://bad::url")] ∧
    (collectStatistics (chars ("* http://bad::url\n"))).protocolHttp = 1 ∧
    (collectStatistics (chars ("* http://bad::url\n"))).protocolHttp ≠ 0 ∧
    (collectStatistics (chars ("* http://bad::url\n"))).domainStats = [] ∧
    (collectStatistics (chars ("* http://bad::url\n"))).tldStats = [] := by
  decide

/-- C4 (amended): for every input, brokenLinks is exactly the list of
unique urls whose structural parse fails, in set order; the domain and
top-level-domain tables carry one count per unique url whose parse
succeeds, so parse failures contribute to neither; and the protocol
counts are computed from the literal string prefix of each unique url,
regardless of parse success. -/
theorem c4_broken_links_excluded (content : Str) :
    (collectStatistics content).brokenLinks
      = ((statsScan content).2).filter (fun u => (parseHostname u).isNone) ∧
    tblTotal (collectStatistics content).domainStats
      = (((statsScan content).2).filter (fun u => (parseHostname u).isSome)).length ∧
    tblTotal (collectStatistics content).tldStats
      = (((statsScan content).2).filter (fun u => (parseHostname u).isSome)).length ∧
    (collectStatistics content).protocolHttp
      = (((statsScan content).2).filter (fun u => strStartsWith u litHttp)).length ∧
    (collectStatistics content).protocolHttps
      = (((statsScan content).2).filter (fun u => strStartsWith u litHttps)).length := by
  obtain ⟨h1, h2, h3⟩ := statsTables_fold ((statsScan content).2) [] [] []
  refine ⟨?_, ?_, ?_, rfl, rfl⟩
  · show (statsTables ((statsScan content).2)).2.2 = _
    rw [statsTables]
    simpa using h1
  · show tblTotal (statsTables ((statsScan content).2)).1 = _
    rw [statsTables]
    simpa [tblTotal] using h2
  · show tblTotal (statsTables ((statsScan content).2)).2.1 = _
    rw [statsTables]
    simpa [tblTotal] using h3

/-- C5: the percentage display at zero unique links.  The claim, with
the specification, mandates a short-circuit to zero percent; the code
divides by zero, producing a value that is not a number, modelled here
by none; the general statement shows every zero-unique input hits this
path. -/
theorem c5_zero_unique_percent_not_a_number :
    (collectStatistics (chars ("no links here\n"))).uniqueLinks = 0 ∧
    displayPct (collectStatistics (chars ("no links here\n"))).protocolHttp
      (collectStatistics (chars ("no links here\n"))).uniqueLinks = none ∧
    displayPct (collectStatistics (chars ("no links here\n"))).protocolHttps
      (collectStatistics (chars ("no links here\n"))).uniqueLinks = none ∧
    (∀ count unique : Nat, unique = 0 → displayPct count unique = none) := by
  refine ⟨by decide, by decide, by decide, ?_⟩
  intro count unique h
  simp [displayPct, h]

/-- C6 counterexample: a line already starting with the bullet marker is
stored verbatim, keeping its doubled space after the bullet, so the
stored line is not the bullet marker followed by the raw url, and the
transform emits the original spacing. -/
theorem c6_counterexample :
    classifyLine (chars ("*  https://a.com")) =
      some (chars ("https://a.com"), chars ("*  https://a.com")) ∧
    chars ("*  https://a.com") ≠ bulletSp ++ chars ("https://a.com") ∧
    sortLinksText (chars ("*  https://a.com")) false = chars ("*  https://a.com") := by
  decide

/-- C6 (amended): for a classified line, the stored canonical line is
the bullet marker followed by the raw url exactly when the original
untrimmed line does not itself start with the bullet marker; a line
already starting with the bullet marker is kept verbatim, preserving
its original spacing. -/
theorem c6_canonical_line (l u c : Str) (h : classifyLine l = some (u, c)) :
    (strStartsWith l bulletSp = false → c = bulletSp ++ u) ∧
    (strStartsWith l bulletSp = true → c = l) := by
  rcases (classifyLine_cases l u c h).2 with ⟨h1, h2, h3⟩ | ⟨h1, h2, h3, h4⟩
  · constructor
    · intro hs
      rw [h3, if_neg (by simp [hs])]
    · intro hs
      rw [h3, if_pos hs]
  · constructor
    · intro hs
      exact h4
    · intro hs
      exfalso
      rcases (strStartsWith_iff l bulletSp).mp hs with ⟨r, hr⟩
      have hr2 : l = '*' :: ' ' :: r := hr
      have htl : trimLeft l = l := by
        rw [hr2]
        exact trimLeft_cons '*' (' ' :: r) (by decide)
      obtain ⟨r2, hr3⟩ := trimRight_cons_head '*' (' ' :: r) (by decide)
      have htr : trim l = '*' :: r2 := by
        rw [trim, htl, hr2]
        exact hr3
      rcases Bool.or_eq_true_iff.mp h2 with h5 | h5
      · rw [htr, show litHttp = 'h' :: chars ("ttp://") from rfl] at h5
        rw [strStartsWith_cons_ne '*' r2 'h' (chars ("ttp://")) (by decide)] at h5
        exact Bool.noConfusion h5
      · rw [htr, show litHttps = 'h' :: chars ("ttps://") from rfl] at h5
        rw [strStartsWith_cons_ne '*' r2 'h' (chars ("ttps://")) (by decide)] at h5
        exact Bool.noConfusion h5

/-- C6 witness: the amended statement applied to a line with leading
whitespace before the bullet, which is rebuilt with a single space, and
whose hypotheses hold by computation. -/
theorem c6_canonical_line_witness :
    (strStartsWith (chars ("  * https://a.com")) bulletSp = false →
      chars ("* https://a.com") = bulletSp ++ chars ("https://a.com")) ∧
    (strStartsWith (chars ("  * https://a.com")) bulletSp = true →
      chars ("* https://a.com") = chars ("  * https://a.com")) :=
  c6_canonical_line (chars ("  * https://a.com")) (chars ("https://a.com"))
    (chars ("* https://a.com")) (by decide)

/-- C7 counterexample: the scenario-4 line contains neither scheme
marker, so it is not classified as a link line at all; uniqueLinks is
zero, not one, and brokenLinks stays empty rather than holding the
url. -/
theorem c7_counterexample :
    (collectStatistics (chars ("* ftp://bad::url\n"))).uniqueLinks = 0 ∧
    (collectStatistics (chars ("* ftp://bad::url\n"))).uniqueLinks ≠ 1 ∧
    (collectStatistics (chars ("* ftp://bad::url\n"))).brokenLinks
      ≠ [chars ("ftp://bad::url")] := by
  decide

/-- C7 (amended): the scenario-4 document has no link line, because the
classifier requires a literal http or https marker; all statistics
tables are empty, uniqueLinks and totalLinks are zero, and the transform
output is empty. -/
theorem c7_ftp_line_not_classified :
    classifyUrl (chars ("* ftp://bad::url")) = [] ∧
    classifyLine (chars ("* ftp://bad::url")) = none ∧
    (collectStatistics (chars ("* ftp://bad::url\n"))).uniqueLinks = 0 ∧
    (collectStatistics (chars ("* ftp://bad::url\n"))).totalLinks = 0 ∧
    (collectStatistics (chars ("* ftp://bad::url\n"))).brokenLinks = [] ∧
    (collectStatistics (chars ("* ftp://bad::url\n"))).domainStats = [] ∧
    (collectStatistics (chars ("* ftp://bad::url\n"))).tldStats = [] := by
  decide

/-- C10: for every input the http and https protocol counts sum to at
most the number of unique links, because each unique url is counted in
at most one bucket by its literal prefix; the inequality is strict for
the bulleted line with prose before the url, whose raw url starts with
neither marker, and both displayed percentages are then zero, summing
to zero rather than one hundred. -/
theorem c10_protocol_counts :
    (∀ content : Str,
      (collectStatistics content).protocolHttp + (collectStatistics content).protocolHttps
        ≤ (collectStatistics content).uniqueLinks) ∧
    (collectStatistics (chars ("* see http://x\n"))).uniqueLinks = 1 ∧
    (collectStatistics (chars ("* see http://x\n"))).protocolHttp = 0 ∧
    (collectStatistics (chars ("* see http://x\n"))).protocolHttps = 0 ∧
    (collectStatistics (chars ("* see http://x\n"))).protocolHttp
      + (collectStatistics (chars ("* see http://x\n"))).protocolHttps
      < (collectStatistics (chars ("* see http://x\n"))).uniqueLinks ∧
    displayPct (collectStatistics (chars ("* see http://x\n"))).protocolHttp
      (collectStatistics (chars ("* see http://x\n"))).uniqueLinks = some 0 ∧
    displayPct (collectStatistics (chars ("* see http://x\n"))).protocolHttps
      (collectStatistics (chars ("* see http://x\n"))).uniqueLinks = some 0 := by
  refine ⟨?_, by decide, by decide, by decide, by decide, by decide, by decide⟩
  intro content
  show ((statsScan content).2.filter (fun u => strStartsWith u litHttp)).length +
      ((statsScan content).2.filter (fun u => strStartsWith u litHttps)).length ≤
      ((statsScan content).2).length
  exact filter_disjoint_length (fun u => strStartsWith u litHttp)
    (fun u => strStartsWith u litHttps) ((statsScan content).2)
    (fun x hx hp => https_not_of_http x hp)

/-- Each collected url of the extraction looks up to a stored line that
classifies back to the url and is newline-free. -/
theorem extractLinks_line_facts (body : List Str)
    (hbody : ∀ line ∈ body, '\n' ∉ line) (u : Str)
    (hu : u ∈ (extractLinks body).2.1) :
    classifyLine (mapGet (extractLinks body).2.2 u)
      = some (u, mapGet (extractLinks body).2.2 u) ∧
    '\n' ∉ mapGet (extractLinks body).2.2 u := by
  obtain ⟨h1, h2, h3, h4⟩ := extractLinks_inv body hbody ([], [], [])
    (by simp) (by simp) (by simp) (by simp)
  have hkey := h4 u hu
  rcases List.mem_map.mp hkey with ⟨e, he, hef⟩
  have hget : mapGet (extractLinks body).2.2 u = e.2 := by
    apply mapGet_of_mem _ _ _ h1
    rw [← hef]
    simpa using he
  obtain ⟨hc, hn⟩ := h2 e he
  refine ⟨?_, ?_⟩
  · rw [hget, ← hef]
    exact hc
  · rw [hget]
    exact hn

/-- The collected url list of the extraction has no duplicates. -/
theorem extractLinks_urls_nodup (body : List Str)
    (hbody : ∀ line ∈ body, '\n' ∉ line) : (extractLinks body).2.1.Nodup :=
  (extractLinks_inv body hbody ([], [], []) (by simp) (by simp) (by simp) (by simp)).2.2.1

/-- Every line of the flat ordering output classifies to itself with its
recovered url, and is newline-free. -/
theorem flatSortedLinks_facts (content : Str) (l : Str)
    (hl : l ∈ flatSortedLinks content) :
    classifyLine l = some (lineUrl l, l) ∧ '\n' ∉ l := by
  have hbody : ∀ line ∈ (splitNl content).drop (findSplitIdx (splitNl content)),
      '\n' ∉ line :=
    fun line hline => not_mem_nl_splitNl content line (List.mem_of_mem_drop hline)
  have hl2 : l ∈ ((extractLinks ((splitNl content).drop (findSplitIdx (splitNl content)))).2.1).map
      (mapGet (extractLinks ((splitNl content).drop (findSplitIdx (splitNl content)))).2.2) :=
    (stableSort_perm lineLe _).mem_iff.mp hl
  rcases List.mem_map.mp hl2 with ⟨u, hu, hlu⟩
  obtain ⟨hc, hn⟩ := extractLinks_line_facts _ hbody u hu
  rw [hlu] at hc hn
  have hu2 : lineUrl l = u := lineUrl_of_classify l u l hc
  refine ⟨?_, hn⟩
  rw [hu2]
  exact hc

/-- A property of grouped values established for every inserted value
holds for every member of every group. -/
theorem buildGroups_value_prop (urls : List Str) (m : List (Str × Str))
    (P : Str → Str → Prop) (hp : ∀ u ∈ urls, P (domainKey u) (mapGet m u)) :
    ∀ gs0 : List (Str × List Str), (∀ e ∈ gs0, ∀ v ∈ e.2, P e.1 v) →
      ∀ e ∈ urls.foldl (fun gs url => addToGroup gs (domainKey url) (mapGet m url)) gs0,
        ∀ v ∈ e.2, P e.1 v := by
  induction urls with
  | nil =>
    intro gs0 h0
    simpa using h0
  | cons u rest ih =>
    intro gs0 h0
    rw [List.foldl_cons]
    exact ih (fun u2 hu2 => hp u2 (List.mem_cons_of_mem _ hu2)) _
      (addToGroup_entry_prop gs0 (domainKey u) (mapGet m u) P h0 (hp u (by simp)))

/-- Group building keeps the key list duplicate-free. -/
theorem buildGroups_keys_nodup (urls : List Str) (m : List (Str × Str)) :
    ∀ gs0 : List (Str × List Str), (gs0.map Prod.fst).Nodup →
      ((urls.foldl (fun gs url => addToGroup gs (domainKey url) (mapGet m url)) gs0).map
        Prod.fst).Nodup := by
  induction urls with
  | nil =>
    intro gs0 h0
    simpa using h0
  | cons u rest ih =>
    intro gs0 h0
    rw [List.foldl_cons]
    apply ih
    by_cases hmem : domainKey u ∈ gs0.map Prod.fst
    · rw [addToGroup_keys, if_pos hmem]
      exact h0
    · rw [addToGroup_keys, if_neg hmem]
      refine List.nodup_append.mpr ⟨h0, by simp, ?_⟩
      intro a ha hb
      rw [List.mem_singleton] at hb
      rw [hb] at ha
      exact hmem ha

/-- Every line of the grouped ordering output classifies to itself with
its recovered url, and is newline-free. -/
theorem groupedSortedLinks_facts (content : Str) (l : Str)
    (hl : l ∈ groupedSortedLinks content) :
    classifyLine l = some (lineUrl l, l) ∧ '\n' ∉ l := by
  have hbody : ∀ line ∈ (splitNl content).drop (findSplitIdx (splitNl content)),
      '\n' ∉ line :=
    fun line hline => not_mem_nl_splitNl content line (List.mem_of_mem_drop hline)
  have hl2 : l ∈ (stableSort keyLe
      ((buildGroups (extractLinks ((splitNl content).drop (findSplitIdx (splitNl content)))).2.1
        (extractLinks ((splitNl content).drop (findSplitIdx (splitNl content)))).2.2).map
        Prod.fst)).foldl
      (fun acc d => acc ++ stableSort lineLe
        (alGet (buildGroups (extractLinks ((splitNl content).drop
          (findSplitIdx (splitNl content)))).2.1
          (extractLinks ((splitNl content).drop (findSplitIdx (splitNl content)))).2.2) d)) [] :=
    hl
  rw [foldl_append_eq_flatten] at hl2
  simp only [List.nil_append] at hl2
  rcases List.mem_flatten.mp hl2 with ⟨chunk, hchunk, hlc⟩
  rcases List.mem_map.mp hchunk with ⟨d, hd, hdc⟩
  rw [← hdc] at hlc
  have hlv : l ∈ alGet (buildGroups (extractLinks ((splitNl content).drop
      (findSplitIdx (splitNl content)))).2.1
      (extractLinks ((splitNl content).drop (findSplitIdx (splitNl content)))).2.2) d :=
    (stableSort_perm lineLe _).mem_iff.mp hlc
  have hdk : d ∈ ((buildGroups (extractLinks ((splitNl content).drop
      (findSplitIdx (splitNl content)))).2.1
      (extractLinks ((splitNl content).drop (findSplitIdx (splitNl content)))).2.2).map
      Prod.fst) :=
    (stableSort_perm keyLe _).mem_iff.mp hd
  rcases List.mem_map.mp hdk with ⟨e, he, hef⟩
  have hnd : ((buildGroups (extractLinks ((splitNl content).drop
      (findSplitIdx (splitNl content)))).2.1
      (extractLinks ((splitNl content).drop (findSplitIdx (splitNl content)))).2.2).map
      Prod.fst).Nodup :=
    buildGroups_keys_nodup _ _ [] (by simp)
  have hget : alGet (buildGroups (extractLinks ((splitNl content).drop
      (findSplitIdx (splitNl content)))).2.1
      (extractLinks ((splitNl content).drop (findSplitIdx (splitNl content)))).2.2) d = e.2 := by
    apply alGet_of_mem _ _ _ hnd
    rw [← hef]
    simpa using he
  rw [hget] at hlv
  have hprop := buildGroups_value_prop
    (extractLinks ((splitNl content).drop (findSplitIdx (splitNl content)))).2.1
    (extractLinks ((splitNl content).drop (findSplitIdx (splitNl content)))).2.2
    (fun k v => classifyLine v = some (lineUrl v, v) ∧ '\n' ∉ v)
    (by
      intro u hu
      obtain ⟨hc, hn⟩ := extractLinks_line_facts _ hbody u hu
      have hu2 : lineUrl (mapGet (extractLinks ((splitNl content).drop
          (findSplitIdx (splitNl content)))).2.2 u) = u :=
        lineUrl_of_classify _ u _ hc
      refine ⟨?_, hn⟩
      rw [hu2]
      exact hc)
    [] (by simp) e he l hlv
  exact hprop

/-- C2 counterexample: the line whose trimmed form starts with http but
is not a link line.  Per the claim it lies strictly before the first
classifier link line and must be preserved, yet the splitter breaks on
it, the extraction drops it, and it is absent from the output. -/
theorem c2_counterexample :
    classifyLine (chars ("http is a protocol")) = none ∧
    (classifyLine (chars ("* https://a.com"))).isSome = true ∧
    sortLinksText (chars ("http is a protocol\n* https://a.com")) false
      = chars ("* https://a.com") ∧
    chars ("http is a protocol") ∉
      splitNl (sortLinksText (chars ("http is a protocol\n* https://a.com")) false) := by
  decide

/-- C2 (amended): the header is delimited by the splitter predicate of
the code, not by the link classifier: it consists of the lines strictly
before the first line whose trimmed form starts with a bulleted or bare
http marker, every such header line fails that predicate, and in both
modes the header lines appear unmodified and in order as a prefix of
the output. -/
theorem c2_header_splitter (content : Str) (groupByDomain : Bool) :
    (∀ l ∈ (splitNl content).take (findSplitIdx (splitNl content)), isSplitLine l = false) ∧
    (splitNl (sortLinksText content groupByDomain)).take (findSplitIdx (splitNl content))
      = (splitNl content).take (findSplitIdx (splitNl content)) := by
  refine ⟨fun l hl => take_findSplitIdx (splitNl content) l hl, ?_⟩
  have e : sortLinksText content groupByDomain =
      joinNl ((splitNl content).take (findSplitIdx (splitNl content)) ++
        (if groupByDomain then groupedSortedLinks content else flatSortedLinks content)) := rfl
  rw [e]
  by_cases hne : (splitNl content).take (findSplitIdx (splitNl content)) ++
      (if groupByDomain then groupedSortedLinks content else flatSortedLinks content) = []
  · rcases List.append_eq_nil.mp hne with ⟨h1, h2⟩
    have hk0 : findSplitIdx (splitNl content) = 0 := by
      rcases List.take_eq_nil_iff.mp h1 with h | h
      · exact h
      · exact absurd h (splitNl_ne_nil content)
    rw [hne, hk0]
    simp
  · have hnonl : ∀ p ∈ (splitNl content).take (findSplitIdx (splitNl content)) ++
        (if groupByDomain then groupedSortedLinks content else flatSortedLinks content),
        '\n' ∉ p := by
      intro p hp
      rcases List.mem_append.mp hp with h1 | h1
      · exact not_mem_nl_splitNl content p (List.mem_of_mem_take h1)
      · by_cases hg : groupByDomain
        · rw [if_pos hg] at h1
          exact (groupedSortedLinks_facts content p h1).2
        · rw [if_neg hg] at h1
          exact (flatSortedLinks_facts content p h1).2
    rw [splitNl_joinNl _ hne hnonl]
    have hlen : ((splitNl content).take (findSplitIdx (splitNl content))).length
        = findSplitIdx (splitNl content) := by
      rw [List.length_take]
      exact min_eq_left (findSplitIdx_le (splitNl content))
    calc ((splitNl content).take (findSplitIdx (splitNl content)) ++
          (if groupByDomain then groupedSortedLinks content else flatSortedLinks content)).take
          (findSplitIdx (splitNl content))
        = ((splitNl content).take (findSplitIdx (splitNl content)) ++
          (if groupByDomain then groupedSortedLinks content else flatSortedLinks content)).take
          ((splitNl content).take (findSplitIdx (splitNl content))).length := by rw [hlen]
    _ = (splitNl content).take (findSplitIdx (splitNl content)) := List.take_left _ _

/-- The urls recovered from the flat ordering output are pairwise
distinct. -/
theorem flatSortedLinks_urls_nodup (content : Str) :
    ((flatSortedLinks content).map lineUrl).Nodup := by
  have hbody : ∀ line ∈ (splitNl content).drop (findSplitIdx (splitNl content)),
      '\n' ∉ line :=
    fun line hline => not_mem_nl_splitNl content line (List.mem_of_mem_drop hline)
  have hperm : (flatSortedLinks content).Perm
      ((extractLinks ((splitNl content).drop (findSplitIdx (splitNl content)))).2.1.map
        (mapGet (extractLinks ((splitNl content).drop (findSplitIdx (splitNl content)))).2.2)) :=
    stableSort_perm lineLe _
  have hmapperm := hperm.map lineUrl
  have hL : ((extractLinks ((splitNl content).drop (findSplitIdx (splitNl content)))).2.1.map
      (mapGet (extractLinks ((splitNl content).drop (findSplitIdx (splitNl content)))).2.2)).map
      lineUrl
      = (extractLinks ((splitNl content).drop (findSplitIdx (splitNl content)))).2.1 := by
    rw [List.map_map]
    have hpt : ∀ u ∈ (extractLinks ((splitNl content).drop
        (findSplitIdx (splitNl content)))).2.1,
        lineUrl (mapGet (extractLinks ((splitNl content).drop
          (findSplitIdx (splitNl content)))).2.2 u) = u :=
      fun u hu => lineUrl_of_classify _ u _ (extractLinks_line_facts _ hbody u hu).1
    calc (extractLinks ((splitNl content).drop (findSplitIdx (splitNl content)))).2.1.map
          (fun u => lineUrl (mapGet (extractLinks ((splitNl content).drop
            (findSplitIdx (splitNl content)))).2.2 u))
        = (extractLinks ((splitNl content).drop (findSplitIdx (splitNl content)))).2.1.map
          id := List.map_congr_left hpt
    _ = _ := List.map_id _
  rw [hL] at hmapperm
  exact hmapperm.nodup_iff.mpr (extractLinks_urls_nodup _ hbody)

/-- The flat ordering output is sorted by the flat relation. -/
theorem flatSortedLinks_sorted (content : Str) :
    (flatSortedLinks content).Pairwise (fun a b => lineLe a b = true) :=
  stableSort_pairwise lineLe lineLe_trans lineLe_total _

/-- C9 counterexample: a document with two prose-bullet link lines and
one splitter-matching non-link line.  The first run keeps one prose
line as header and sorts the only extracted link after it; the second
run sees no splitter line, takes an empty header, extracts both prose
lines and sorts them, producing a different text. -/
theorem c9_counterexample :
    sortLinksText (sortLinksText (chars ("* zz http://a\n* httpx\n* see http://b")) false) false
      ≠ sortLinksText (chars ("* zz http://a\n* httpx\n* see http://b")) false := by
  decide

/-- C9 (amended): the flat transform is idempotent for every document
whose first run emits at least one link line and whose emitted link
lines all satisfy the header-splitter predicate, that is, their trimmed
form starts with a bulleted http marker.  Under these conditions the
second run splits the output exactly at the end of the preserved
header, re-extracts the same urls from the same stored lines, and the
stable sort fixes the already sorted list. -/
theorem c9_flat_idempotent (content : Str)
    (hne : flatSortedLinks content ≠ [])
    (hsplit : ∀ l ∈ flatSortedLinks content, isSplitLine l = true) :
    sortLinksText (sortLinksText content false) false = sortLinksText content false := by
  have e1 : sortLinksText content false =
      joinNl ((splitNl content).take (findSplitIdx (splitNl content)) ++
        flatSortedLinks content) := rfl
  have hSfacts : ∀ l ∈ flatSortedLinks content,
      classifyLine l = some (lineUrl l, l) ∧ '\n' ∉ l :=
    fun l hl => flatSortedLinks_facts content l hl
  have hSnodup : ((flatSortedLinks content).map lineUrl).Nodup :=
    flatSortedLinks_urls_nodup content
  have hSsorted := flatSortedLinks_sorted content
  have hHfail : ∀ l ∈ (splitNl content).take (findSplitIdx (splitNl content)),
      isSplitLine l = false :=
    fun l hl => take_findSplitIdx (splitNl content) l hl
  have hHnl : ∀ l ∈ (splitNl content).take (findSplitIdx (splitNl content)), '\n' ∉ l :=
    fun l hl => not_mem_nl_splitNl content l (List.mem_of_mem_take hl)
  obtain ⟨s0, S2, hS⟩ : ∃ s0 S2, flatSortedLinks content = s0 :: S2 := by
    cases h : flatSortedLinks content with
    | nil => exact absurd h hne
    | cons a b => exact ⟨a, b, rfl⟩
  have hsplitout : splitNl (sortLinksText content false) =
      (splitNl content).take (findSplitIdx (splitNl content)) ++ flatSortedLinks content := by
    rw [e1]
    apply splitNl_joinNl
    · rw [hS]
      simp
    · intro p hp
      rcases List.mem_append.mp hp with h1 | h1
      · exact hHnl p h1
      · exact (hSfacts p h1).2
  have hk2 : findSplitIdx ((splitNl content).take (findSplitIdx (splitNl content)) ++
      flatSortedLinks content)
      = ((splitNl content).take (findSplitIdx (splitNl content))).length := by
    rw [hS]
    exact findSplitIdx_append _ s0 S2 hHfail (hsplit s0 (by rw [hS]; simp))
  have hex : extractLinks (flatSortedLinks content) =
      (flatSortedLinks content, (flatSortedLinks content).map lineUrl,
        (flatSortedLinks content).map (fun l => (lineUrl l, l))) := by
    have hfold := foldl_extract_selfclassify (flatSortedLinks content) [] [] []
      (fun l hl => (hSfacts l hl).1) (by simp) hSnodup (by simp)
    simpa using hfold
  have hflat2 : flatSortedLinks (sortLinksText content false) = flatSortedLinks content := by
    show stableSort lineLe
      ((extractLinks ((splitNl (sortLinksText content false)).drop
        (findSplitIdx (splitNl (sortLinksText content false))))).2.1.map
        (mapGet (extractLinks ((splitNl (sortLinksText content false)).drop
          (findSplitIdx (splitNl (sortLinksText content false))))).2.2))
      = flatSortedLinks content
    rw [hsplitout, hk2, List.drop_left, hex]
    have hmapback : ((flatSortedLinks content).map lineUrl).map
        (mapGet ((flatSortedLinks content).map (fun l => (lineUrl l, l)))) =
        flatSortedLinks content := by
      rw [List.map_map]
      have hpt : ∀ l ∈ flatSortedLinks content,
          mapGet ((flatSortedLinks content).map (fun l2 => (lineUrl l2, l2))) (lineUrl l)
            = l := by
        intro l hl
        apply mapGet_of_mem
        · rw [List.map_map]
          exact hSnodup
        · exact List.mem_map.mpr ⟨l, hl, rfl⟩
      calc (flatSortedLinks content).map
            (fun l => mapGet ((flatSortedLinks content).map (fun l2 => (lineUrl l2, l2)))
              (lineUrl l))
          = (flatSortedLinks content).map id := List.map_congr_left hpt
      _ = _ := List.map_id _
    rw [hmapback]
    exact stableSort_of_pairwise lineLe _ hSsorted
  have e2 : sortLinksText (sortLinksText content false) false =
      joinNl ((splitNl (sortLinksText content false)).take
        (findSplitIdx (splitNl (sortLinksText content false))) ++
        flatSortedLinks (sortLinksText content false)) := rfl
  rw [e2, hflat2, hsplitout, hk2, List.take_left, e1]

/-- C9 witness: the amended idempotence applied to the scenario-1
document, whose two emitted link lines are bulleted https lines and so
satisfy the splitter predicate. -/
theorem c9_flat_idempotent_witness :
    sortLinksText (sortLinksText
      (chars ("# Links\n* https://b.com/x\n* https://a.com/y\n")) false) false
      = sortLinksText (chars ("# Links\n* https://b.com/x\n* https://a.com/y\n")) false :=
  c9_flat_idempotent (chars ("# Links\n* https://b.com/x\n* https://a.com/y\n"))
    (by decide) (by decide)

/-- The key relation is reflexive. -/
theorem keyLe_refl (d : Str) : keyLe d d = true := by
  show (strCmp (lowerStr d) (lowerStr d) != Ordering.gt) = true
  rw [strCmp_self]
  rfl

/-- The grouped concatenation over sorted keys is pairwise ordered by
the grouped contract, for any url set and line map whose looked-up
lines carry the grouping key of their url. -/
theorem grouped_pairwise_general (urls : List Str) (m : List (Str × Str))
    (hp : ∀ u ∈ urls, lineGroupKey (mapGet m u) = domainKey u) :
    ((stableSort keyLe ((buildGroups urls m).map Prod.fst)).foldl
      (fun acc d => acc ++ stableSort lineLe (alGet (buildGroups urls m) d)) []).Pairwise
      groupedOrderOk := by
  have hkeys : ((buildGroups urls m).map Prod.fst).Nodup :=
    buildGroups_keys_nodup urls m [] (by simp)
  have hval : ∀ e ∈ buildGroups urls m, ∀ v ∈ e.2, lineGroupKey v = e.1 :=
    buildGroups_value_prop urls m (fun k v => lineGroupKey v = k)
      (fun u hu => hp u hu) [] (by simp)
  have hsdnodup : (stableSort keyLe ((buildGroups urls m).map Prod.fst)).Nodup :=
    (stableSort_perm keyLe _).nodup_iff.mpr hkeys
  have hsdsorted : (stableSort keyLe ((buildGroups urls m).map Prod.fst)).Pairwise
      (fun a b => keyLe a b = true) :=
    stableSort_pairwise keyLe keyLe_trans keyLe_total _
  have hchunk : ∀ d ∈ stableSort keyLe ((buildGroups urls m).map Prod.fst),
      ∀ x ∈ stableSort lineLe (alGet (buildGroups urls m) d), lineGroupKey x = d := by
    intro d hd x hx
    have hdk : d ∈ (buildGroups urls m).map Prod.fst :=
      (stableSort_perm keyLe _).mem_iff.mp hd
    rcases List.mem_map.mp hdk with ⟨e, he, hef⟩
    have hget : alGet (buildGroups urls m) d = e.2 := by
      apply alGet_of_mem _ _ _ hkeys
      rw [← hef]
      simpa using he
    have hx2 : x ∈ e.2 := by
      rw [← hget]
      exact (stableSort_perm lineLe _).mem_iff.mp hx
    rw [← hef]
    exact hval e he x hx2
  rw [foldl_append_eq_flatten]
  rw [List.nil_append]
  rw [List.pairwise_flatten]
  constructor
  · intro chunk hc
    rcases List.mem_map.mp hc with ⟨d, hd, hdc⟩
    have hsorted : chunk.Pairwise (fun a b => lineLe a b = true) := by
      rw [← hdc]
      exact stableSort_pairwise lineLe lineLe_trans lineLe_total _
    refine hsorted.imp_of_mem ?_
    intro a b ha hb hab
    have hka : lineGroupKey a = d := hchunk d hd a (by rw [hdc]; exact ha)
    have hkb : lineGroupKey b = d := hchunk d hd b (by rw [hdc]; exact hb)
    refine ⟨?_, fun _ => hab⟩
    rw [hka, hkb]
    exact keyLe_refl d
  · have hand : (stableSort keyLe ((buildGroups urls m).map Prod.fst)).Pairwise
        (fun d1 d2 => keyLe d1 d2 = true ∧ d1 ≠ d2) :=
      hsdsorted.and hsdnodup
    rw [List.pairwise_map]
    refine hand.imp_of_mem ?_
    intro d1 d2 hd1 hd2 hdd
    intro x hx y hy
    have hkx : lineGroupKey x = d1 := hchunk d1 hd1 x hx
    have hky : lineGroupKey y = d2 := hchunk d2 hd2 y hy
    refine ⟨?_, ?_⟩
    · rw [hkx, hky]
      exact hdd.1
    · intro heq
      exfalso
      rw [hkx, hky] at heq
      exact hdd.2 heq

/-- C8: in grouped mode, the ordering output of every document is
pairwise ordered by the grouped contract: an earlier line never has a
group key sorting strictly after the key of a later line under the
case-insensitive comparison, and lines of an identical group key appear
in ascending case-insensitive bullet-stripped order.  The group key of
a line is the key its url received: hostname on parse success, else the
lenient regular-expression authority, else the whole url, with a
leading www. marker stripped. -/
theorem c8_grouped_ordering (content : Str) :
    (groupedSortedLinks content).Pairwise groupedOrderOk := by
  have hbody : ∀ line ∈ (splitNl content).drop (findSplitIdx (splitNl content)),
      '\n' ∉ line :=
    fun line hline => not_mem_nl_splitNl content line (List.mem_of_mem_drop hline)
  have hp : ∀ u ∈ (extractLinks ((splitNl content).drop
      (findSplitIdx (splitNl content)))).2.1,
      lineGroupKey (mapGet (extractLinks ((splitNl content).drop
        (findSplitIdx (splitNl content)))).2.2 u) = domainKey u := by
    intro u hu
    have hc := (extractLinks_line_facts _ hbody u hu).1
    have hu2 : lineUrl (mapGet (extractLinks ((splitNl content).drop
        (findSplitIdx (splitNl content)))).2.2 u) = u :=
      lineUrl_of_classify _ u _ hc
    rw [lineGroupKey, hu2]
  exact grouped_pairwise_general
    (extractLinks ((splitNl content).drop (findSplitIdx (splitNl content)))).2.1
    (extractLinks ((splitNl content).drop (findSplitIdx (splitNl content)))).2.2 hp

end SortLinks
